import Mathlib

/-!
Verification of the queue implementation in `queue.c` (lab0-c): a circular,
sentinel-based doubly-linked list of C strings with insertion, removal,
middle deletion, duplicate collapsing, pairwise swap, reversal and an
in-place merge sort.

The development has two layers.

* A functional layer: each operation of `queue.c` is translated into a pure
  function on the list of payload values (C strings are modelled as their
  byte sequences, `List Nat`, compared by a byte-wise `strcmp` exactly as
  the C library function does).  Fallible operations take and return
  `Option`/`Except` values: a `none` queue argument models a NULL
  `struct list_head *` handle.

* A pointer layer: the heap is a total map from addresses (`Nat`) to
  `next`/`prev` pointer pairs, and each operation is translated write for
  write from the C source.  Loops whose iteration count the C code bounds
  by the chain structure are given explicit fuel; the interpreters supply
  fuel derived from the allocation frontier, which is proved sufficient.
  This layer settles the chain-shape invariants (circularity and
  double-link consistency).

The list-node primitives (`list_add`, `list_del`, `list_cut_position`,
`list_splice_tail_init`, ...) live in `list.h`, which is not part of the
sources under verification; they are modelled from the specification's
description of the sentinel-list primitives (§4.1/§4.8), with a doc
comment marking each such definition.
-/

namespace LabQueue

/-- A C string value: the sequence of its (non-NUL) bytes. -/
abbrev CStr := List Nat

/-- Byte-wise string comparison, exactly as C `strcmp`: the first differing
byte decides; a proper prefix (terminated earlier by NUL) is smaller. -/
def strcmp : CStr → CStr → Ordering
  | [], [] => .eq
  | [], _ :: _ => .lt
  | _ :: _, [] => .gt
  | a :: as, b :: bs =>
    if a < b then .lt else if b < a then .gt else strcmp as bs

/-- Boolean form of `strcmp x y < 0`, the comparison the C code branches on. -/
def sltb (x y : CStr) : Bool := strcmp x y = Ordering.lt

/-- `strcmp x y <= 0` as a relation (the order in which the queue sorts). -/
def sLe (x y : CStr) : Prop := strcmp x y ≠ Ordering.gt

instance : DecidableRel sLe := fun x y => by unfold sLe; infer_instance

/-- The two-pointer loop of `q_get_mid`, tracked at the level of zero-based
element indices: `forward` sits at index `f`, `backward` at index `b`;
the loop body advances `forward` and retreats `backward` until they meet
(`f = b`) or become adjacent (`forward->next == backward`, i.e. `f+1 = b`).
`fuel` bounds the number of iterations (the C loop is bounded by the chain
itself; every caller below supplies sufficient fuel). -/
def getMidStep : Nat → Nat → Nat → Nat
  | 0, f, _ => f
  | fuel + 1, f, b => if f = b ∨ f + 1 = b then f else getMidStep fuel (f + 1) (b - 1)

/-- Zero-based index of the node `q_get_mid` returns, for a (non-empty)
chain of `n` elements: a singular list returns its sole element
(`head->next`, index 0), otherwise the two-pointer walk starts at the first
(index 0) and last (index `n-1`) elements. -/
def qGetMidIdx (n : Nat) : Nat :=
  if n = 1 then 0 else getMidStep n 0 (n - 1)

/-- `q_delete_mid`: fails on a NULL handle or an empty list, otherwise
unlinks and destroys the node `q_get_mid` locates. -/
def q_delete_mid (q : Option (List CStr)) : Bool × Option (List CStr) :=
  match q with
  | none => (false, none)
  | some [] => (false, some [])
  | some l => (true, some (l.eraseIdx (qGetMidIdx l.length)))

/-- The `merge` loop of `queue.c`, in terms of the contents of the two
sentinel lists.  State: `acc` is the part of `H1` strictly before the scan
cursor `node1`; `l1` is the part of `H1` from `node1` (inclusive) to the
sentinel; the third argument is the remaining content of `H2` (its head is
`node2`).  One iteration scans `l1` past the elements with
`strcmp(E1, E2) < 0`; if the scan reaches the `H1` sentinel the whole rest
of `H2` is spliced onto `H1`'s tail (`list_splice_tail_init`, leaving `H2`
empty), otherwise `node2` is unlinked from `H2` and inserted immediately
before the stop position (`list_add_tail(node2, node1)`).  The result is
the pair (final content of `H1`, final content of `H2`). -/
def mergeTri (acc l1 : List CStr) : List CStr → List CStr × List CStr
  | [] => (acc ++ l1, [])
  | y :: ys =>
    if (l1.dropWhile fun x => sltb x y) = [] then
      (acc ++ l1 ++ y :: ys, [])
    else
      mergeTri (acc ++ (l1.takeWhile fun x => sltb x y) ++ [y])
        (l1.dropWhile fun x => sltb x y) ys

/-- `merge(H1, H2)`: both lists start being scanned from their first
element; returns (content of `H1`, content of `H2`) after the call. -/
def merge (l1 l2 : List CStr) : List CStr × List CStr := mergeTri [] l1 l2

/-- Textbook one-element-at-a-time merge with the same tie policy as the
code (on `strcmp = 0` the element of the second list is taken first).  Used
as a stepping stone: `merge` is proved equal to it. -/
def mergeStd : List CStr → List CStr → List CStr
  | [], l2 => l2
  | l1, [] => l1
  | x :: xs, y :: ys =>
    if sltb x y then x :: mergeStd xs (y :: ys) else y :: mergeStd (x :: xs) ys
termination_by l1 l2 => l1.length + l2.length

theorem getMidStep_eq (fuel f b : Nat) (hfb : f ≤ b) (hfuel : b - f ≤ 2 * fuel + 1) :
    getMidStep fuel f b = f + (b - f) / 2 := by
  induction fuel generalizing f b with
  | zero =>
    simp only [getMidStep]
    omega
  | succ n ih =>
    simp only [getMidStep]
    by_cases h : f = b ∨ f + 1 = b
    · rw [if_pos h]; omega
    · rw [if_neg h]
      rw [ih (f + 1) (b - 1) (by omega) (by omega)]
      omega

theorem qGetMidIdx_eq (n : Nat) (h : 1 ≤ n) : qGetMidIdx n = (n - 1) / 2 := by
  unfold qGetMidIdx
  by_cases h1 : n = 1
  · simp [h1]
  · rw [if_neg h1, getMidStep_eq n 0 (n - 1) (by omega) (by omega)]
    omega

/-- `q_sort` on a present (non-NULL) chain: no-op on an empty or singular
list; otherwise `list_cut_position(&head2, head, q_get_mid(head))` moves the
elements from the first through the middle node (inclusive) under the local
sentinel `head2`, leaving `head` with the rest; both halves are sorted
recursively and merged back into `head` by `merge(head, &head2)`.
`list_cut_position` is modelled from the spec: §4.8 together with the
terminating recursion of §4.10 — the initial segment through the target
node moves to the separately-provided sentinel. -/
def q_sortF (l : List CStr) : List CStr :=
  if h : l.length ≤ 1 then l
  else
    (merge (q_sortF (l.drop (qGetMidIdx l.length + 1)))
           (q_sortF (l.take (qGetMidIdx l.length + 1)))).1
termination_by l.length
decreasing_by
  · simp only [List.length_drop]
    have := qGetMidIdx_eq l.length (by omega)
    omega
  · simp only [List.length_take]
    have hm := qGetMidIdx_eq l.length (by omega)
    have : (l.length - 1) / 2 < l.length - 1 := Nat.div_lt_self (by omega) (by omega)
    omega

/-- `q_sort` including the NULL-handle guard. -/
def q_sort (q : Option (List CStr)) : Option (List CStr) :=
  match q with
  | none => none
  | some l => some (q_sortF l)

/-- Elements carry an identity tag besides their value, so that "which node
of a run of equal values survives" is expressible. -/
abbrev Elem := Nat × CStr

/-- The loop of `q_delete_dup` (`list_for_each_entry_safe`): each element
`e` is compared with its successor `s`; when the successor exists
(`&s->list != head`) and `strcmp(e->value, s->value) == 0`, `e` is unlinked
and destroyed; iteration resumes at `s` either way. -/
def delDupF : List Elem → List Elem
  | e :: s :: rest =>
    if strcmp e.2 s.2 = .eq then delDupF (s :: rest) else e :: delDupF (s :: rest)
  | l => l

/-- `q_delete_dup`: false only on a NULL handle, otherwise runs the
duplicate-collapsing loop and reports success. -/
def q_delete_dup (q : Option (List Elem)) : Bool × Option (List Elem) :=
  match q with
  | none => (false, none)
  | some l => (true, some (delDupF l))

/-- Written from the spec's words (§4.5), for comparison with `delDupF`:
every maximal run of adjacent elements with equal values collapses to
exactly its last element (the later element of each equal pair is the
surviving representative). -/
def specRunsLast : List Elem → List Elem
  | [] => []
  | e :: rest =>
    match specRunsLast rest with
    | [] => [e]
    | f :: fs => if strcmp e.2 f.2 = .eq then f :: fs else e :: f :: fs

/-- Effective content of the caller's buffer after
`strncpy(sp, value, bufsize-1); sp[bufsize-1] = 0`: at most `bufsize - 1`
bytes of the value, followed by a NUL terminator. -/
def copyOut (v : CStr) (bufsize : Nat) : List Nat := v.take (bufsize - 1) ++ [0]

/-- `q_remove_head`: NULL on a NULL handle or empty queue; otherwise the
first element is unlinked (`list_del_init`) and returned — its payload is
not destroyed — and, when an output buffer `sp` was supplied, up to
`bufsize-1` bytes of the value plus a terminator are copied out.  Result:
(returned element, queue content afterwards, buffer content written). -/
def q_remove_head (q : Option (List CStr)) (sp : Bool) (bufsize : Nat) :
    Option CStr × Option (List CStr) × Option (List Nat) :=
  match q with
  | none => (none, none, none)
  | some [] => (none, some [], none)
  | some (v :: rest) =>
    (some v, some rest, if sp then some (copyOut v bufsize) else none)

/-- `q_remove_tail`: same contract as `q_remove_head`, at the other end
(`head->prev`). -/
def q_remove_tail (q : Option (List CStr)) (sp : Bool) (bufsize : Nat) :
    Option CStr × Option (List CStr) × Option (List Nat) :=
  match q with
  | none => (none, none, none)
  | some [] => (none, some [], none)
  | some (v :: rest) =>
    (some ((v :: rest).getLast (List.cons_ne_nil v rest)),
     some (v :: rest).dropLast,
     if sp then some (copyOut ((v :: rest).getLast (List.cons_ne_nil v rest)) bufsize)
     else none)

/-- `q_insert_head` with an allocation oracle: `okElem` is whether
`malloc(sizeof(element_t))` succeeds, `okStr` whether `strdup(s)` succeeds.
Result: (return value, queue content afterwards, number of allocated
pieces that are neither released nor linked into the queue on return).
On the element-allocation failure path nothing was allocated; on the
string-duplication failure path the element is released (`free(new)`)
before returning, so both failure paths leak nothing. -/
def q_insert_head (okElem okStr : Bool) (q : Option (List CStr)) (s : CStr) :
    Bool × Option (List CStr) × Nat :=
  match q with
  | none => (false, none, 0)
  | some l =>
    if okElem = false then (false, some l, 0)
    else if okStr = false then (false, some l, 0)
    else (true, some (s :: l), 0)

/-- `q_insert_tail` with the same allocation oracle as `q_insert_head`;
`list_add_tail` links the new element before the sentinel. -/
def q_insert_tail (okElem okStr : Bool) (q : Option (List CStr)) (s : CStr) :
    Bool × Option (List CStr) × Nat :=
  match q with
  | none => (false, none, 0)
  | some l =>
    if okElem = false then (false, some l, 0)
    else if okStr = false then (false, some l, 0)
    else (true, some (l ++ [s]), 0)

/-- `q_size`: 0 on a NULL handle or empty queue, otherwise a full
traversal count. -/
def q_size (q : Option (List CStr)) : Nat :=
  match q with
  | none => 0
  | some l => l.length

/-- One pass of the `q_swap` loop: each adjacent pair is transposed by
pointer surgery; a trailing unpaired element is left in place. -/
def swapF : List CStr → List CStr
  | x :: y :: rest => y :: x :: swapF rest
  | l => l

/-- `q_swap` has no NULL-handle guard: on a NULL `head` the very first
statement `node1 = head->next` dereferences a null pointer, modelled as
`Except.error`.  On a present chain the loop transposes adjacent pairs
(no-op for an empty or singular chain). -/
def q_swap (q : Option (List CStr)) : Except Unit (List CStr) :=
  match q with
  | none => .error ()
  | some l => .ok (swapF l)

/-- `q_reverse`: no-op on a NULL handle or empty queue; otherwise every
node's `next`/`prev` are exchanged and finally the sentinel's own. -/
def q_reverse (q : Option (List CStr)) : Option (List CStr) :=
  match q with
  | none => none
  | some l => some l.reverse

/-! ## Pointer layer

Addresses are natural numbers; the queue's sentinel lives at address 0.
Every pointer write of the C code becomes one `setNext`/`setPrev` update,
performed in the C statement order with reads evaluated against the
current heap, exactly as the C statements do. -/

/-- A link node: its (`next`, `prev`) pointer pair. -/
abbrev Node := Nat × Nat

/-- The heap: a total map from addresses to link nodes. -/
abbrev Heap := Nat → Node

/-- Read a node's `next` pointer. -/
def nxt (H : Heap) (a : Nat) : Nat := (H a).1

/-- Read a node's `prev` pointer. -/
def prv (H : Heap) (a : Nat) : Nat := (H a).2

/-- Write a node's `next` pointer. -/
def setNext (H : Heap) (a v : Nat) : Heap :=
  fun x => if x = a then (v, (H x).2) else H x

/-- Write a node's `prev` pointer. -/
def setPrev (H : Heap) (a v : Nat) : Heap :=
  fun x => if x = a then ((H x).1, v) else H x

/-- Modelled from the spec (§4.1 `init`, `list.h`'s `INIT_LIST_HEAD` is not
under src/): make a node self-referential, representing an empty list. -/
def initHead (H : Heap) (a : Nat) : Heap := setPrev (setNext H a a) a a

/-- Modelled from the spec (§4.1 `insert_after`, `list.h`'s `list_add` is
not under src/): splice the detached `node` right after `head`, updating
four references. -/
def list_add (H : Heap) (node head : Nat) : Heap :=
  let first := nxt H head
  let H1 := setPrev H first node
  let H2 := setNext H1 node first
  let H3 := setPrev H2 node head
  setNext H3 head node

/-- Modelled from the spec (§4.1 `insert_before`, `list.h`'s
`list_add_tail` is not under src/): splice the detached `node` right
before `head`. -/
def list_add_tail (H : Heap) (node head : Nat) : Heap :=
  let last := prv H head
  let H1 := setNext H last node
  let H2 := setPrev H1 node last
  let H3 := setNext H2 node head
  setPrev H3 head node

/-- Modelled from the spec (§4.1 `unlink`, `list.h`'s `list_del` is not
under src/): reconnect the removed node's former neighbours. -/
def list_del (H : Heap) (a : Nat) : Heap :=
  let H1 := setNext H (prv H a) (nxt H a)
  setPrev H1 (nxt H1 a) (prv H1 a)

/-- Modelled from the spec (§4.1 `unlink`, `list.h`'s `list_del_init` is
not under src/): unlink and reinitialize the removed node to
self-referential so it is safe to reuse or free. -/
def list_del_init (H : Heap) (a : Nat) : Heap := initHead (list_del H a) a

/-- Modelled from the spec (§4.1 `splice` / glossary, `list.h`'s
`list_splice_tail_init` is not under src/): move the entire segment linked
from sentinel `s2` to just before `s1` (i.e. onto `s1`'s tail), leaving
`s2` empty; no-op when `s2`'s list is empty. -/
def list_splice_tail_init (H : Heap) (s2 s1 : Nat) : Heap :=
  if nxt H s2 = s2 then H
  else
    let first := nxt H s2
    let last := prv H s2
    let tail := prv H s1
    let H1 := setNext H tail first
    let H2 := setPrev H1 first tail
    let H3 := setNext H2 last s1
    let H4 := setPrev H3 s1 last
    initHead H4 s2

/-- Modelled from the spec (§4.8 split, read together with §4.10's
terminating recursion; `list.h`'s `list_cut_position` is not under src/):
detach the initial segment of `s`'s list through the target node `t`
inclusive and re-home it under the separately-provided sentinel `s2`,
leaving `s` with the rest; when `t` is the sentinel itself nothing is cut
(`s2` is initialized empty), and an empty source list is a no-op. -/
def list_cut_position (H : Heap) (s2 s t : Nat) : Heap :=
  if nxt H s = s then H
  else if t = s then initHead H s2
  else
    let first := nxt H s
    let rest := nxt H t
    let H1 := setNext H s rest
    let H2 := setPrev H1 rest s
    let H3 := setNext H2 s2 first
    let H4 := setPrev H3 first s2
    let H5 := setPrev H4 s2 t
    setNext H5 t s2

/-- Machine state for the pointer layer: the heap of link nodes, the
payload value attached to each element address, and the allocation
frontier (all addresses in use are below it; fresh allocations take it). -/
structure Sys where
  H : Heap
  val : Nat → CStr
  fr : Nat

/-- `q_new()`: the sentinel is allocated at address 0, self-referential. -/
def sys0 : Sys := { H := fun _ => (0, 0), val := fun _ => [], fr := 1 }

/-- `q_insert_head` at the pointer level (`ok` = both allocations succeed;
on failure the function returns before touching the chain). -/
def insHeadP (ok : Bool) (v : CStr) (st : Sys) : Sys :=
  if ok then
    { H := list_add st.H st.fr 0,
      val := fun a => if a = st.fr then v else st.val a,
      fr := st.fr + 1 }
  else st

/-- `q_insert_tail` at the pointer level. -/
def insTailP (ok : Bool) (v : CStr) (st : Sys) : Sys :=
  if ok then
    { H := list_add_tail st.H st.fr 0,
      val := fun a => if a = st.fr then v else st.val a,
      fr := st.fr + 1 }
  else st

/-- `q_remove_head` at the pointer level: `list_del_init(head->next)`
unless the queue is empty. -/
def rmHeadP (st : Sys) : Sys :=
  if nxt st.H 0 = 0 then st
  else { st with H := list_del_init st.H (nxt st.H 0) }

/-- `q_remove_tail` at the pointer level. -/
def rmTailP (st : Sys) : Sys :=
  if nxt st.H 0 = 0 then st
  else { st with H := list_del_init st.H (prv st.H 0) }

/-- The two-pointer loop of `q_get_mid` on the heap: `forward` advances
along `next`, `backward` retreats along `prev`, until they meet or become
adjacent. -/
def midWalkP (H : Heap) : Nat → Nat → Nat → Nat
  | 0, f, _ => f
  | fuel + 1, f, b =>
    if f = b ∨ nxt H f = b then f else midWalkP H fuel (nxt H f) (prv H b)

/-- `q_get_mid` on the heap, for the list anchored at sentinel `s`: a
singular list returns `head->next` at once, otherwise the two-pointer
walk runs from the first and last elements. -/
def qGetMidP (H : Heap) (fuel s : Nat) : Nat :=
  if nxt H s ≠ s ∧ prv H s = nxt H s then nxt H s
  else midWalkP H fuel (nxt H s) (prv H s)

/-- `q_delete_mid` at the pointer level: `list_del` of the middle node
(the element record is then released, which does not touch the chain). -/
def delMidP (st : Sys) : Sys :=
  if nxt st.H 0 = 0 then st
  else { st with H := list_del st.H (qGetMidP st.H (st.fr + 1) 0) }

/-- The `list_for_each_entry_safe` loop of `q_delete_dup`: the successor
is saved before the body; `e` is unlinked when a successor exists and the
values compare equal; iteration resumes at the saved successor. -/
def delDupLoop (val : Nat → CStr) (s : Nat) : Nat → Heap → Nat → Heap
  | 0, H, _ => H
  | fuel + 1, H, e =>
    if e = s then H
    else
      let sft := nxt H e
      if sft ≠ s ∧ strcmp (val e) (val sft) = .eq then
        delDupLoop val s fuel (list_del H e) sft
      else
        delDupLoop val s fuel H sft

/-- `q_delete_dup` at the pointer level. -/
def delDupP (st : Sys) : Sys :=
  { st with H := delDupLoop st.val 0 st.fr st.H (nxt st.H 0) }

/-- The six pointer writes of one `q_swap` loop iteration, in C statement
order (`node2` is `node1->next`; each read is evaluated against the heap
produced by the preceding writes):
`node1->prev->next = node2; node2->prev = node1->prev;
node2->next->prev = node1; node1->next = node2->next;
node2->next = node1; node1->prev = node2;`. -/
def swapStep (H : Heap) (node1 : Nat) : Heap :=
  let node2 := nxt H node1
  let H1 := setNext H (prv H node1) node2
  let H2 := setPrev H1 node2 (prv H1 node1)
  let H3 := setPrev H2 (nxt H2 node2) node1
  let H4 := setNext H3 node1 (nxt H3 node2)
  let H5 := setNext H4 node2 node1
  setPrev H5 node1 node2

/-- The `q_swap` loop: each iteration reads `node2 = node1->next`, stops
when either cursor is the sentinel, otherwise performs the six pointer
writes of the loop body (`swapStep`) and advances `node1 = node1->next`. -/
def swapLoop (s : Nat) : Nat → Heap → Nat → Heap
  | 0, H, _ => H
  | fuel + 1, H, node1 =>
    if node1 = s ∨ nxt H node1 = s then H
    else swapLoop s fuel (swapStep H node1) (nxt (swapStep H node1) node1)

/-- `q_swap` at the pointer level: no NULL guard in the source; our runs
always pass the present queue at address 0. -/
def qSwapP (st : Sys) : Sys :=
  { st with H := swapLoop 0 st.fr st.H (nxt st.H 0) }

/-- The `list_for_each_safe` loop of `q_reverse`: the successor is saved
before the body; the body exchanges the node's `next`/`prev` (the new
`prev` is the saved successor). -/
def revLoop (s : Nat) : Nat → Heap → Nat → Heap
  | 0, H, _ => H
  | fuel + 1, H, n =>
    if n = s then H
    else
      let sv := nxt H n
      let H1 := setNext H n (prv H n)
      let H2 := setPrev H1 n sv
      revLoop s fuel H2 sv

/-- `q_reverse` at the pointer level: guard, the per-node loop, then the
final exchange of the sentinel's own `next`/`prev`. -/
def qReverseP (st : Sys) : Sys :=
  if nxt st.H 0 = 0 then st
  else
    let Hr := revLoop 0 st.fr st.H (nxt st.H 0)
    let tmp := nxt Hr 0
    { st with H := setPrev (setNext Hr 0 (prv Hr 0)) 0 tmp }

/-- The inner scan of `merge`: advance `node1` while it is not the `H1`
sentinel and its value compares strictly below `y`. -/
def scanP (val : Nat → CStr) (H : Heap) (s1 : Nat) (y : CStr) : Nat → Nat → Nat
  | 0, node1 => node1
  | fuel + 1, node1 =>
    if node1 = s1 then node1
    else if strcmp (val node1) y = .lt then scanP val H s1 y fuel (nxt H node1)
    else node1

/-- The outer loop of `merge`: while `H2` is non-empty, scan `H1` from the
persistent cursor, then either splice all of `H2` onto `H1`'s tail (scan
reached the sentinel) or move `H2`'s head before the stop position. -/
def mergeLoopP (val : Nat → CStr) (inner s1 s2 : Nat) : Nat → Heap → Nat → Heap
  | 0, H, _ => H
  | fuel + 1, H, node1 =>
    if nxt H s2 = s2 then H
    else
      let node2 := nxt H s2
      let n1 := scanP val H s1 (val node2) inner node1
      if n1 = s1 then
        mergeLoopP val inner s1 s2 fuel (list_splice_tail_init H s2 s1) n1
      else
        mergeLoopP val inner s1 s2 fuel
          (list_add_tail (list_del_init H node2) node2 n1) n1

/-- `merge(H1, H2)` at the pointer level: the cursor starts at
`H1->next`. -/
def mergeP (val : Nat → CStr) (inner s1 s2 fuel : Nat) (H : Heap) : Heap :=
  mergeLoopP val inner s1 s2 fuel H (nxt H s1)

/-- `q_sort` at the pointer level: guard (empty or singular), stack-local
sentinel `head2` allocated fresh, `list_cut_position` at `q_get_mid`,
the two recursive sorts, then `merge(head, &head2)`.  `fuel` bounds the
recursion depth; the loop fuels are taken from the allocation frontier,
which bounds every chain length. -/
def qSortP (fuel : Nat) (s : Nat) (st : Sys) : Sys :=
  match fuel with
  | 0 => st
  | f + 1 =>
    if nxt st.H s = s ∨ prv st.H s = nxt st.H s then st
    else
      let s2 := st.fr
      let H0 := initHead st.H s2
      let t := qGetMidP H0 (st.fr + 1) s
      let H1 := list_cut_position H0 s2 s t
      let st1 := qSortP f s { H := H1, val := st.val, fr := st.fr + 1 }
      let st2 := qSortP f s2 st1
      { st2 with H := mergeP st2.val (st2.fr + 1) s s2 (st2.fr + 1) st2.H }

/-- The traversal count of `q_size` (0 on an empty queue). -/
def sizeWalk (H : Heap) (s : Nat) : Nat → Nat → Nat
  | 0, _ => 0
  | fuel + 1, n => if n = s then 0 else 1 + sizeWalk H s fuel (nxt H n)

/-- `q_size` at the pointer level. -/
def qSizeP (H : Heap) (fuel : Nat) : Nat := sizeWalk H 0 fuel (nxt H 0)

/-- One public operation of the driving harness (the allocation outcome of
an insertion is part of the operation). -/
inductive Op where
  | insHead (ok : Bool) (v : CStr)
  | insTail (ok : Bool) (v : CStr)
  | rmHead
  | rmTail
  | delMid
  | delDup
  | swap
  | rev
  | sort

/-- Apply one public operation to the machine state. -/
def stepOp (st : Sys) : Op → Sys
  | .insHead ok v => insHeadP ok v st
  | .insTail ok v => insTailP ok v st
  | .rmHead => rmHeadP st
  | .rmTail => rmTailP st
  | .delMid => delMidP st
  | .delDup => delDupP st
  | .swap => qSwapP st
  | .rev => qReverseP st
  | .sort => qSortP (st.fr + 1) 0 st

/-- Run a sequence of public operations from a given state. -/
def run : List Op → Sys → Sys
  | [], st => st
  | op :: ops, st => run ops (stepOp st op)

/-- `chainSeg H a l b`: starting at anchor `a`, the chain of `next`
pointers passes exactly through `l` and then reaches `b`, with every
`prev` pointer mirroring it (`a.next = l₀, l₀.prev = a, ...,
last.next = b, b.prev = last`).  `chainSeg H s l s` with `s ∉ l` says the
list anchored at sentinel `s` is circular and doubly consistent with
element nodes `l`. -/
def chainSeg (H : Heap) : Nat → List Nat → Nat → Prop
  | a, [], b => nxt H a = b ∧ prv H b = a
  | a, x :: xs, b => nxt H a = x ∧ prv H x = a ∧ chainSeg H x xs b

instance (H : Heap) (a : Nat) (l : List Nat) (b : Nat) :
    Decidable (chainSeg H a l b) := by
  induction l generalizing a with
  | nil => unfold chainSeg; infer_instance
  | cons x xs ih =>
    unfold chainSeg
    have := ih x
    infer_instance

/-- The chain invariant of the queue at sentinel 0: some duplicate-free
address list `l` bounded by the allocation frontier forms the circular
chain. -/
def Inv (st : Sys) (l : List Nat) : Prop :=
  chainSeg st.H 0 l 0 ∧ (0 :: l).Nodup ∧ ∀ a ∈ 0 :: l, a < st.fr

/-! ## Order theory of `strcmp` -/

theorem strcmp_self (x : CStr) : strcmp x x = .eq := by
  induction x with
  | nil => rfl
  | cons a as ih => simp [strcmp, ih]

theorem strcmp_eq_iff {x y : CStr} : strcmp x y = .eq ↔ x = y := by
  constructor
  · intro h
    induction x generalizing y with
    | nil => cases y with
      | nil => rfl
      | cons b bs => simp [strcmp] at h
    | cons a as ih =>
      cases y with
      | nil => simp [strcmp] at h
      | cons b bs =>
        by_cases hab : a < b
        · simp [strcmp, hab] at h
        · by_cases hba : b < a
          · simp [strcmp, hab, hba] at h
          · have : a = b := Nat.le_antisymm (Nat.le_of_not_lt hba) (Nat.le_of_not_lt hab)
            subst this
            simp [strcmp, hab] at h
            rw [ih h]
  · rintro rfl; exact strcmp_self x

theorem strcmp_gt_iff_lt {x y : CStr} : strcmp x y = .gt ↔ strcmp y x = .lt := by
  induction x generalizing y with
  | nil => cases y <;> simp [strcmp]
  | cons a as ih =>
    cases y with
    | nil => simp [strcmp]
    | cons b bs =>
      by_cases hab : a < b
      · have hba : ¬ b < a := Nat.lt_asymm hab
        simp [strcmp, hab, hba]
      · by_cases hba : b < a
        · simp [strcmp, hab, hba]
        · simp [strcmp, hab, hba, ih]

theorem strcmp_lt_trans {x y z : CStr} (hxy : strcmp x y = .lt)
    (hyz : strcmp y z = .lt) : strcmp x z = .lt := by
  induction x generalizing y z with
  | nil =>
    cases y with
    | nil => simp [strcmp] at hxy
    | cons b bs =>
      cases z with
      | nil => simp [strcmp] at hyz
      | cons c cs => simp [strcmp]
  | cons a as ih =>
    cases y with
    | nil => simp [strcmp] at hxy
    | cons b bs =>
      cases z with
      | nil => simp [strcmp] at hyz
      | cons c cs =>
        by_cases hab : a < b
        · by_cases hbc : b < c
          · simp [strcmp, Nat.lt_trans hab hbc]
          · by_cases hcb : c < b
            · simp [strcmp, hbc, hcb] at hyz
            · have : b = c := Nat.le_antisymm (Nat.le_of_not_lt hcb) (Nat.le_of_not_lt hbc)
              subst this
              simp [strcmp, hab]
        · by_cases hba : b < a
          · simp [strcmp, hab, hba] at hxy
          · have : a = b := Nat.le_antisymm (Nat.le_of_not_lt hba) (Nat.le_of_not_lt hab)
            subst this
            simp only [strcmp, if_neg hab, if_neg hba] at hxy
            by_cases hac : a < c
            · simp [strcmp, hac]
            · by_cases hca : c < a
              · simp [strcmp, hac, hca] at hyz
              · have : a = c := Nat.le_antisymm (Nat.le_of_not_lt hca) (Nat.le_of_not_lt hac)
                subst this
                simp only [strcmp, if_neg hac, if_neg hca] at hyz ⊢
                exact ih hxy hyz

theorem strcmp_cases (x y : CStr) :
    strcmp x y = .lt ∨ strcmp x y = .eq ∨ strcmp x y = .gt := by
  cases h : strcmp x y <;> simp

theorem sLe_of_not_lt {x y : CStr} (h : ¬ strcmp x y = .lt) : sLe y x := by
  intro hgt
  exact h (strcmp_gt_iff_lt.mp hgt)

theorem sLe_of_lt {x y : CStr} (h : strcmp x y = .lt) : sLe x y := by
  intro hgt
  rw [strcmp_gt_iff_lt] at hgt
  rcases strcmp_cases x y with h1 | h1 | h1
  · exact absurd (strcmp_lt_trans h1 hgt) (by rw [strcmp_self x]; simp)
  · rw [strcmp_eq_iff.mp h1, strcmp_self] at h; simp at h
  · rw [strcmp_gt_iff_lt] at h1
    exact absurd (strcmp_lt_trans h1 h) (by rw [strcmp_self y]; simp)

theorem sLe_trans {x y z : CStr} (hxy : sLe x y) (hyz : sLe y z) : sLe x z := by
  rcases strcmp_cases x y with h1 | h1 | h1
  · rcases strcmp_cases y z with h2 | h2 | h2
    · exact sLe_of_lt (strcmp_lt_trans h1 h2)
    · rw [strcmp_eq_iff.mp h2] at h1; exact sLe_of_lt h1
    · exact absurd h2 hyz
  · rw [strcmp_eq_iff.mp h1]; exact hyz
  · exact absurd h1 hxy

theorem sLe_refl (x : CStr) : sLe x x := by
  unfold sLe; rw [strcmp_self]; simp

theorem sLe_of_eq {x y : CStr} (h : strcmp x y = .eq) : sLe y x := by
  rw [strcmp_eq_iff.mp h]; exact sLe_refl y

/-! ## The merge loop -/

theorem mergeTri_snd (l2 : List CStr) : ∀ acc l1, (mergeTri acc l1 l2).2 = [] := by
  induction l2 with
  | nil => intro acc l1; rfl
  | cons y ys ih =>
    intro acc l1
    simp only [mergeTri]
    split
    · rfl
    · exact ih _ _

theorem mergeTri_fst_acc (l2 : List CStr) :
    ∀ acc l1, (mergeTri acc l1 l2).1 = acc ++ (mergeTri [] l1 l2).1 := by
  induction l2 with
  | nil => intro acc l1; simp [mergeTri]
  | cons y ys ih =>
    intro acc l1
    simp only [mergeTri]
    split
    · simp
    · rw [ih (acc ++ (l1.takeWhile fun x => sltb x y) ++ [y]),
          ih ([] ++ (l1.takeWhile fun x => sltb x y) ++ [y])]
      simp

theorem mergeStd_cons_eq (l1 : List CStr) (y : CStr) (ys : List CStr) :
    mergeStd l1 (y :: ys) =
      (l1.takeWhile fun x => sltb x y) ++
        (if (l1.dropWhile fun x => sltb x y) = [] then y :: ys
         else y :: mergeStd (l1.dropWhile fun x => sltb x y) ys) := by
  induction l1 with
  | nil => simp [mergeStd]
  | cons x xs ih =>
    by_cases h : sltb x y
    · simp only [mergeStd, if_pos h, List.takeWhile_cons, List.dropWhile_cons, h,
        ite_true]
      rw [ih]
      simp
    · have hb : sltb x y = false := by simpa using h
      simp only [mergeStd, if_neg h, List.takeWhile_cons, List.dropWhile_cons, hb]
      simp

theorem merge_fst (l2 : List CStr) : ∀ l1, (merge l1 l2).1 = mergeStd l1 l2 := by
  induction l2 with
  | nil => intro l1; cases l1 <;> simp [merge, mergeTri, mergeStd]
  | cons y ys ih =>
    intro l1
    rw [mergeStd_cons_eq]
    show (mergeTri [] l1 (y :: ys)).1 = _
    simp only [mergeTri]
    by_cases h : (l1.dropWhile fun x => sltb x y) = []
    · rw [if_pos h, if_pos h]
      have := List.takeWhile_append_dropWhile (p := fun x => sltb x y) (l := l1)
      rw [h, List.append_nil] at this
      simp [this]
    · rw [if_neg h, if_neg h]
      rw [mergeTri_fst_acc]
      rw [show (mergeTri [] (l1.dropWhile fun x => sltb x y) ys).1 =
            mergeStd (l1.dropWhile fun x => sltb x y) ys from ih _]
      simp

theorem mergeStd_perm (l2 : List CStr) : ∀ l1, (mergeStd l1 l2).Perm (l1 ++ l2) := by
  induction l2 with
  | nil => intro l1; cases l1 <;> simp [mergeStd]
  | cons y ys ih2 =>
    intro l1
    induction l1 with
    | nil => simp [mergeStd]
    | cons x xs ih1 =>
      simp only [mergeStd]
      by_cases h : sltb x y
      · rw [if_pos h]
        exact (ih1.cons x).trans (by simp)
      · rw [if_neg h]
        refine ((ih2 (x :: xs)).cons y).trans ?_
        exact (List.perm_middle : ((x :: xs) ++ y :: ys).Perm (y :: ((x :: xs) ++ ys))).symm

theorem mergeStd_mem {z : CStr} {l1 l2 : List CStr} (h : z ∈ mergeStd l1 l2) :
    z ∈ l1 ∨ z ∈ l2 := by
  have := (mergeStd_perm l2 l1).mem_iff.mp h
  simpa using this

theorem mergeStd_sorted (l2 : List CStr) :
    ∀ l1, l1.Pairwise sLe → l2.Pairwise sLe → (mergeStd l1 l2).Pairwise sLe := by
  induction l2 with
  | nil =>
    intro l1 h1 _
    cases l1 with
    | nil => simp [mergeStd]
    | cons x xs => simpa [mergeStd] using h1
  | cons y ys ih2 =>
    intro l1 h1 h2
    induction l1 with
    | nil => simpa [mergeStd] using h2
    | cons x xs ih1 =>
      rw [List.pairwise_cons] at h1
      simp only [mergeStd]
      by_cases h : sltb x y
      · rw [if_pos h]
        rw [List.pairwise_cons]
        constructor
        · intro z hz
          rcases mergeStd_mem hz with hz | hz
          · exact h1.1 z hz
          · have hxy : sLe x y := sLe_of_lt (by simpa [sltb] using h)
            rcases List.mem_cons.mp hz with rfl | hz
            · exact hxy
            · exact sLe_trans hxy ((List.pairwise_cons.mp h2).1 z hz)
        · exact ih1 h1.2
      · rw [if_neg h]
        rw [List.pairwise_cons]
        constructor
        · intro z hz
          have hyx : sLe y x := sLe_of_not_lt (by simpa [sltb] using h)
          rcases mergeStd_mem hz with hz | hz
          · rcases List.mem_cons.mp hz with rfl | hz
            · exact hyx
            · exact sLe_trans hyx (h1.1 z hz)
          · exact (List.pairwise_cons.mp h2).1 z hz
        · exact ih2 (x :: xs) (List.pairwise_cons.mpr h1) (List.pairwise_cons.mp h2).2

/-! ## Sort correctness -/

theorem q_sortF_spec_aux :
    ∀ n (l : List CStr), l.length ≤ n →
      (q_sortF l).Pairwise sLe ∧ (q_sortF l).Perm l := by
  intro n
  induction n with
  | zero =>
    intro l h
    have : l = [] := List.length_eq_zero.mp (by omega)
    subst this
    rw [q_sortF]
    simp
  | succ n ih =>
    intro l hlen
    rw [q_sortF]
    by_cases h : l.length ≤ 1
    · rw [dif_pos h]
      refine ⟨?_, List.Perm.refl l⟩
      cases l with
      | nil => simp
      | cons x xs =>
        cases xs with
        | nil => simp
        | cons y ys => simp at h
    · rw [dif_neg h]
      have hm : qGetMidIdx l.length = (l.length - 1) / 2 :=
        qGetMidIdx_eq _ (by omega)
      have hmlt : (l.length - 1) / 2 < l.length - 1 := Nat.div_lt_self (by omega) (by omega)
      have h1 : (l.drop (qGetMidIdx l.length + 1)).length ≤ n := by
        simp only [List.length_drop]
        omega
      have h2 : (l.take (qGetMidIdx l.length + 1)).length ≤ n := by
        simp only [List.length_take]
        omega
      obtain ⟨s1s, s1p⟩ := ih _ h1
      obtain ⟨s2s, s2p⟩ := ih _ h2
      rw [merge_fst]
      refine ⟨mergeStd_sorted _ _ s1s s2s, ?_⟩
      refine (mergeStd_perm _ _).trans ((s1p.append s2p).trans ?_)
      refine List.perm_append_comm.trans ?_
      rw [List.take_append_drop]

theorem q_sortF_spec (l : List CStr) :
    (q_sortF l).Pairwise sLe ∧ (q_sortF l).Perm l :=
  q_sortF_spec_aux l.length l (Nat.le_refl _)

/-! ## Duplicate collapsing -/

theorem specRunsLast_cons (e : Elem) (rest : List Elem) :
    specRunsLast (e :: rest) =
      match specRunsLast rest with
      | [] => [e]
      | f :: fs => if strcmp e.2 f.2 = .eq then f :: fs else e :: f :: fs := rfl

theorem specRunsLast_head (e : Elem) (rest : List Elem) :
    ∃ f fs, specRunsLast (e :: rest) = f :: fs ∧ f.2 = e.2 := by
  induction rest generalizing e with
  | nil => exact ⟨e, [], rfl, rfl⟩
  | cons s rest ih =>
    obtain ⟨f, fs, hf, hv⟩ := ih s
    rw [specRunsLast_cons, hf]
    dsimp only
    by_cases h : strcmp e.2 f.2 = .eq
    · rw [if_pos h]
      exact ⟨f, fs, rfl, (strcmp_eq_iff.mp h).symm⟩
    · rw [if_neg h]
      exact ⟨e, f :: fs, rfl, rfl⟩

theorem delDupF_eq_specRunsLast : ∀ l : List Elem, delDupF l = specRunsLast l := by
  intro l
  induction l with
  | nil => rfl
  | cons e rest ih =>
    cases rest with
    | nil => rfl
    | cons s rest =>
      obtain ⟨f, fs, hf, hv⟩ := specRunsLast_head s rest
      have heq : (strcmp e.2 s.2 = Ordering.eq) ↔ (strcmp e.2 f.2 = Ordering.eq) := by
        rw [hv]
      rw [specRunsLast_cons, hf]
      dsimp only
      show (if strcmp e.2 s.2 = .eq then delDupF (s :: rest)
            else e :: delDupF (s :: rest)) = _
      rw [ih, hf]
      by_cases h : strcmp e.2 s.2 = .eq
      · rw [if_pos h, if_pos (heq.mp h)]
      · rw [if_neg h, if_neg (fun hc => h (heq.mpr hc))]

/-! ## Chain-segment toolkit -/

@[simp] theorem nxt_setNext (H : Heap) (a v x : Nat) :
    nxt (setNext H a v) x = if x = a then v else nxt H x := by
  unfold nxt setNext
  split <;> rfl

@[simp] theorem prv_setNext (H : Heap) (a v x : Nat) :
    prv (setNext H a v) x = prv H x := by
  unfold prv setNext
  split <;> rfl

@[simp] theorem nxt_setPrev (H : Heap) (a v x : Nat) :
    nxt (setPrev H a v) x = nxt H x := by
  unfold nxt setPrev
  split <;> rfl

@[simp] theorem prv_setPrev (H : Heap) (a v x : Nat) :
    prv (setPrev H a v) x = if x = a then v else prv H x := by
  unfold prv setPrev
  split <;> rfl

theorem chainSeg_nil {H : Heap} {a b : Nat} :
    chainSeg H a [] b ↔ nxt H a = b ∧ prv H b = a := Iff.rfl

theorem chainSeg_cons {H : Heap} {a x b : Nat} {xs : List Nat} :
    chainSeg H a (x :: xs) b ↔
      nxt H a = x ∧ prv H x = a ∧ chainSeg H x xs b := Iff.rfl

theorem chainSeg_append {H : Heap} {a m b : Nat} (xs ys : List Nat) :
    chainSeg H a (xs ++ m :: ys) b ↔ chainSeg H a xs m ∧ chainSeg H m ys b := by
  induction xs generalizing a with
  | nil =>
    show chainSeg H a (m :: ys) b ↔ _
    rw [chainSeg_cons, chainSeg_nil]
    tauto
  | cons x xs ih =>
    show chainSeg H a (x :: (xs ++ m :: ys)) b ↔ _
    rw [chainSeg_cons, chainSeg_cons, ih]
    tauto

theorem chainSeg_snoc {H : Heap} {a w b : Nat} (xs : List Nat) :
    chainSeg H a (xs ++ [w]) b ↔
      chainSeg H a xs w ∧ nxt H w = b ∧ prv H b = w := by
  rw [chainSeg_append xs []]
  rw [show chainSeg H w ([] : List Nat) b ↔ _ from chainSeg_nil]

theorem chainSeg_frame {H H2 : Heap} {a b : Nat} {xs : List Nat}
    (h : chainSeg H a xs b)
    (hn : ∀ x ∈ a :: xs, nxt H2 x = nxt H x)
    (hp : ∀ x ∈ xs ++ [b], prv H2 x = prv H x) :
    chainSeg H2 a xs b := by
  induction xs generalizing a with
  | nil =>
    obtain ⟨h1, h2⟩ := h
    exact ⟨by rw [hn a (by simp), h1], by rw [hp b (by simp), h2]⟩
  | cons x xs ih =>
    obtain ⟨h1, h2, h3⟩ := h
    refine ⟨by rw [hn a (by simp), h1], by rw [hp x (by simp), h2], ?_⟩
    exact ih h3 (fun y hy => hn y (by simp at hy ⊢; tauto))
      (fun y hy => hp y (by simp at hy ⊢; tauto))

theorem chainSeg_iterate_nxt {H : Heap} {a b : Nat} {xs : List Nat}
    (h : chainSeg H a xs b) :
    (fun x => nxt H x)^[xs.length + 1] a = b := by
  induction xs generalizing a with
  | nil => simpa using h.1
  | cons x xs ih =>
    obtain ⟨h1, _, h3⟩ := h
    have := ih h3
    simp only [List.length_cons]
    rw [Function.iterate_succ_apply]
    simpa [h1] using this

theorem chainSeg_iterate_prv {H : Heap} {a b : Nat} {xs : List Nat}
    (h : chainSeg H a xs b) :
    (fun x => prv H x)^[xs.length + 1] b = a := by
  induction xs generalizing a with
  | nil => simpa using h.2
  | cons x xs ih =>
    obtain ⟨_, h2, h3⟩ := h
    have := ih h3
    simp only [List.length_cons]
    rw [Function.iterate_succ_apply']
    rw [this, h2]

theorem chainSeg_nxt_prv {H : Heap} {a b : Nat} {xs : List Nat}
    (h : chainSeg H a xs b) : ∀ x ∈ a :: xs, prv H (nxt H x) = x := by
  induction xs generalizing a with
  | nil =>
    intro x hx
    rcases List.mem_singleton.mp hx with rfl
    rw [h.1, h.2]
  | cons y ys ih =>
    intro x hx
    rcases List.mem_cons.mp hx with rfl | hx
    · rw [h.1, h.2.1]
    · exact ih h.2.2 x hx

theorem sizeWalk_chain {H : Heap} {s : Nat} :
    ∀ (xs : List Nat) (a fuel : Nat), chainSeg H a xs s → a ≠ s →
      (∀ x ∈ xs, x ≠ s) → xs.length + 1 ≤ fuel →
      sizeWalk H s fuel a = xs.length + 1 := by
  intro xs
  induction xs with
  | nil =>
    intro a fuel h ha _ hf
    cases fuel with
    | zero => omega
    | succ fuel =>
      show (if a = s then 0 else 1 + sizeWalk H s fuel (nxt H a)) = 1
      rw [if_neg ha, h.1]
      cases fuel with
      | zero => rfl
      | succ fuel => show 1 + (if s = s then 0 else _) = 1; simp
  | cons x xs ih =>
    intro a fuel h ha hxs hf
    cases fuel with
    | zero => simp at hf
    | succ fuel =>
      show (if a = s then 0 else 1 + sizeWalk H s fuel (nxt H a)) = _
      rw [if_neg ha, h.1,
        ih x fuel h.2.2 (hxs x (by simp)) (fun y hy => hxs y (by simp [hy]))
          (by simp at hf; omega)]
      simp [Nat.add_comm]

theorem qSizeP_chain {H : Heap} {l : List Nat} (h : chainSeg H 0 l 0)
    (hnd : (0 :: l).Nodup) {fuel : Nat} (hf : l.length + 1 ≤ fuel) :
    qSizeP H fuel = l.length := by
  unfold qSizeP
  cases l with
  | nil =>
    rw [h.1]
    cases fuel with
    | zero => omega
    | succ fuel => show (if (0 : Nat) = 0 then 0 else _) = 0; simp
  | cons x xs =>
    obtain ⟨h1, _, h3⟩ := h
    rw [h1]
    have hnds := List.nodup_cons.mp hnd
    rw [sizeWalk_chain xs x fuel h3
      (fun hc => hnds.1 (hc ▸ List.mem_cons_self x xs))
      (fun y hy hc => hnds.1 (hc ▸ List.mem_cons_of_mem x hy))
      (by simp at hf ⊢; omega)]
    simp

/-! ## Surgery lemmas: each list primitive preserves the chain shape -/

theorem ring_list_add {H : Heap} {s node : Nat} {l : List Nat}
    (hr : chainSeg H s l s) (hnd : (s :: l).Nodup) (hnode : node ∉ s :: l) :
    chainSeg (list_add H node s) s (node :: l) s ∧
      ∀ x, x ∉ s :: l → x ≠ node → list_add H node s x = H x := by
  simp only [List.mem_cons, not_or] at hnode
  obtain ⟨hns, hnl⟩ := hnode
  constructor
  · cases l with
    | nil =>
      obtain ⟨h1, h2⟩ := hr
      rw [chainSeg_cons, chainSeg_nil]
      refine ⟨?_, ?_, ?_, ?_⟩ <;>
        simp [list_add, h1, h2, hns, Ne.symm hns]
    | cons x xs =>
      obtain ⟨h1, h2, h3⟩ := hr
      have hsl : s ∉ x :: xs := (List.nodup_cons.mp hnd).1
      simp only [List.mem_cons, not_or] at hsl
      obtain ⟨hsx, hsxs⟩ := hsl
      simp only [List.mem_cons, not_or] at hnl
      obtain ⟨hnx, hnxs⟩ := hnl
      rw [chainSeg_cons, chainSeg_cons]
      refine ⟨?_, ?_, ?_, ?_, ?_⟩
      · simp [list_add, h1, hns, Ne.symm hns, hnx, Ne.symm hnx, hsx, Ne.symm hsx]
      · simp [list_add, h1, hns, Ne.symm hns, hnx, Ne.symm hnx, hsx, Ne.symm hsx]
      · simp [list_add, h1, hns, Ne.symm hns, hnx, Ne.symm hnx, hsx, Ne.symm hsx]
      · simp [list_add, h1, h2, hns, Ne.symm hns, hnx, Ne.symm hnx, hsx, Ne.symm hsx]
      · refine chainSeg_frame h3 ?_ ?_
        · intro y hy
          have hys : y ≠ s := fun hc => by subst hc; simp at hy; tauto
          have hyn : y ≠ node := by
            rcases List.mem_cons.mp hy with rfl | hy2
            · exact Ne.symm hnx
            · exact fun hc => hnxs (hc ▸ hy2)
          simp [list_add, h1, hys, hyn]
        · intro y hy
          rcases List.mem_append.mp hy with hy | hy
          · have hyn : y ≠ node := fun hc => hnxs (hc ▸ hy)
            have hyx : y ≠ x :=
              fun hc => (List.nodup_cons.mp (List.nodup_cons.mp hnd).2).1 (hc ▸ hy)
            simp [list_add, h1, hyn, hyx]
          · rcases List.mem_singleton.mp hy with rfl
            simp [list_add, h1, hns, Ne.symm hns, hsx, Ne.symm hsx]
  · intro x hx hxn
    simp only [List.mem_cons, not_or] at hx
    obtain ⟨hxs, hxl⟩ := hx
    have hxf : x ≠ nxt H s := by
      cases l with
      | nil => rw [hr.1]; exact hxs
      | cons z zs =>
        rw [hr.1]
        simp only [List.mem_cons, not_or] at hxl
        exact hxl.1
    simp [list_add, setNext, setPrev, hxs, hxn, hxf]

theorem ring_list_add_tail {H : Heap} {s node : Nat} {l : List Nat}
    (hr : chainSeg H s l s) (hnd : (s :: l).Nodup) (hnode : node ∉ s :: l) :
    chainSeg (list_add_tail H node s) s (l ++ [node]) s ∧
      ∀ x, x ∉ s :: l → x ≠ node → list_add_tail H node s x = H x := by
  simp only [List.mem_cons, not_or] at hnode
  obtain ⟨hns, hnl⟩ := hnode
  constructor
  · rcases List.eq_nil_or_concat l with rfl | ⟨ys, w, rfl⟩
    · obtain ⟨h1, h2⟩ := hr
      show chainSeg _ s [node] s
      rw [chainSeg_cons, chainSeg_nil]
      refine ⟨?_, ?_, ?_, ?_⟩ <;>
        simp [list_add_tail, h1, h2, hns, Ne.symm hns]
    · simp only [List.concat_eq_append] at hr hnd hnl ⊢
      rw [chainSeg_snoc] at hr
      obtain ⟨h1, h2, h3⟩ := hr
      have hsw : s ≠ w := by
        have := (List.nodup_cons.mp hnd).1
        simp at this
        exact this.2
      have hnw : node ≠ w := by
        intro hc
        apply hnl
        rw [hc]
        simp
      have hwys : w ∉ ys := by
        have := (List.nodup_cons.mp hnd).2
        rw [List.nodup_append] at this
        exact fun hc => this.2.2 hc (List.mem_singleton_self w)
      have hsys : s ∉ ys := by
        have := (List.nodup_cons.mp hnd).1
        simp at this
        exact this.1
      have hnys : node ∉ ys := by
        intro hc
        apply hnl
        simp [hc]
      rw [show ys ++ [w] ++ [node] = ys ++ [w] ++ [node] from rfl, chainSeg_snoc,
        chainSeg_snoc]
      refine ⟨⟨?_, ?_, ?_⟩, ?_, ?_⟩
      · refine chainSeg_frame h1 ?_ ?_
        · intro y hy
          have hyw : y ≠ w := by
            rcases List.mem_cons.mp hy with rfl | hy2
            · exact hsw
            · exact fun hc => hwys (hc ▸ hy2)
          have hyn : y ≠ node := by
            rcases List.mem_cons.mp hy with rfl | hy2
            · exact Ne.symm hns
            · exact fun hc => hnys (hc ▸ hy2)
          simp [list_add_tail, h3, hyw, hyn]
        · intro y hy
          rcases List.mem_append.mp hy with hy | hy
          · have hyn : y ≠ node := fun hc => hnys (hc ▸ hy)
            have hys : y ≠ s := fun hc => hsys (hc ▸ hy)
            simp [list_add_tail, h3, hyn, hys]
          · rcases List.mem_singleton.mp hy with rfl
            simp [list_add_tail, h3, hnw, Ne.symm hnw, hsw, Ne.symm hsw,
              hns, Ne.symm hns]
      · simp [list_add_tail, h3, hnw, Ne.symm hnw, hsw, Ne.symm hsw, hns, Ne.symm hns]
      · simp [list_add_tail, h3, hnw, Ne.symm hnw, hsw, Ne.symm hsw, hns, Ne.symm hns]
      · simp [list_add_tail, h3, hnw, Ne.symm hnw, hsw, Ne.symm hsw, hns, Ne.symm hns]
      · simp [list_add_tail, h3, hnw, Ne.symm hnw, hsw, Ne.symm hsw, hns, Ne.symm hns]
  · intro x hx hxn
    simp only [List.mem_cons, not_or] at hx
    obtain ⟨hxs, hxl⟩ := hx
    have hxlast : x ≠ prv H s := by
      rcases List.eq_nil_or_concat l with rfl | ⟨ys, w, rfl⟩
      · rw [hr.2]; exact hxs
      · simp only [List.concat_eq_append] at hr hxl
        rw [chainSeg_snoc] at hr
        rw [hr.2.2]
        intro hc
        apply hxl
        simp [hc]
    simp [list_add_tail, setNext, setPrev, hxs, hxn, hxlast]

theorem list_del_eq (H : Heap) (t : Nat) :
    list_del H t = setPrev (setNext H (prv H t) (nxt H t)) (nxt H t) (prv H t) := by
  unfold list_del
  dsimp only
  rw [show nxt (setNext H (prv H t) (nxt H t)) t = nxt H t from by simp,
      show prv (setNext H (prv H t) (nxt H t)) t = prv H t from by simp]


theorem ring_list_del {H : Heap} {s t : Nat} {l₁ l₂ : List Nat}
    (hr : chainSeg H s (l₁ ++ t :: l₂) s) (hnd : (s :: (l₁ ++ t :: l₂)).Nodup) :
    chainSeg (list_del H t) s (l₁ ++ l₂) s ∧
      ∀ x, x ∉ s :: (l₁ ++ t :: l₂) → list_del H t x = H x := by
  rw [chainSeg_append] at hr
  obtain ⟨hr1, hr2⟩ := hr
  simp only [List.nodup_cons, List.mem_cons, List.mem_append, not_or] at hnd
  obtain ⟨⟨hs1, hst, hs2⟩, hnd2⟩ := hnd
  have hdjt : t ∉ l₁ ∧ t ∉ l₂ := by
    rw [List.nodup_append] at hnd2
    constructor
    · exact fun hc => hnd2.2.2 hc (List.mem_cons_self t l₂)
    · exact (List.nodup_cons.mp hnd2.2.1).1
  have hdj12 : ∀ x ∈ l₁, x ∉ l₂ := by
    rw [List.nodup_append] at hnd2
    exact fun x hx hc => hnd2.2.2 hx (List.mem_cons_of_mem t hc)
  have hnd1 : l₁.Nodup := by
    rw [List.nodup_append] at hnd2
    exact hnd2.1
  have hndl2 : l₂.Nodup := by
    rw [List.nodup_append] at hnd2
    exact (List.nodup_cons.mp hnd2.2.1).2
  rw [list_del_eq]
  constructor
  · cases l₁ with
    | nil =>
      have hp : prv H t = s := hr1.2
      cases l₂ with
      | nil =>
        have hn : nxt H t = s := hr2.1
        rw [hp, hn]
        exact ⟨by simp, by simp⟩
      | cons m ms =>
        have hn : nxt H t = m := hr2.1
        rw [hp, hn]
        have hsm : s ≠ m := fun hc => hs2 (by rw [hc]; exact List.mem_cons_self m ms)
        have hmms : m ∉ ms := (List.nodup_cons.mp hndl2).1
        refine ⟨by simp [Ne.symm hsm], by simp [hsm, Ne.symm hsm], ?_⟩
        refine chainSeg_frame hr2.2.2 ?_ ?_
        · intro y hy
          have hys : y ≠ s := by
            rcases List.mem_cons.mp hy with rfl | hy2
            · exact Ne.symm hsm
            · exact fun hc => hs2 (List.mem_cons_of_mem m (hc ▸ hy2))
          simp [hys]
        · intro y hy
          have hym : y ≠ m := by
            rcases List.mem_append.mp hy with hy | hy
            · exact fun hc => hmms (hc ▸ hy)
            · rcases List.mem_singleton.mp hy with rfl
              exact hsm
          simp [hym]
    | cons a1 as1 =>
      rcases List.eq_nil_or_concat (a1 :: as1) with hceq | ⟨ys, w, hceq⟩
      · simp at hceq
      simp only [List.concat_eq_append] at hceq
      rw [hceq] at hr1 hs1 hnd1 hdjt hdj12 ⊢
      rw [chainSeg_snoc] at hr1
      obtain ⟨hc1, hc2, hc3⟩ := hr1
      have hp : prv H t = w := hc3
      have hws : w ≠ s := by
        simp only [List.mem_append, List.mem_singleton, not_or] at hs1
        exact fun hc => hs1.2 hc.symm
      have hwt : w ≠ t := fun hc => hdjt.1 (by rw [← hc]; simp)
      have hyss : ∀ y ∈ ys, y ≠ s := by
        intro y hy hc
        simp only [List.mem_append, List.mem_singleton, not_or] at hs1
        exact hs1.1 (hc ▸ hy)
      have hysw : w ∉ ys := by
        rw [List.nodup_append] at hnd1
        exact fun hc => hnd1.2.2 hc (List.mem_singleton_self w)
      cases l₂ with
      | nil =>
        have hn : nxt H t = s := hr2.1
        rw [hp, hn, List.append_nil, chainSeg_snoc]
        refine ⟨?_, by simp [hwt], by simp [hws, Ne.symm hws]⟩
        refine chainSeg_frame hc1 ?_ ?_
        · intro y hy
          have hyw : y ≠ w := by
            rcases List.mem_cons.mp hy with rfl | hy2
            · exact Ne.symm hws
            · exact fun hc => hysw (hc ▸ hy2)
          simp [hyw]
        · intro y hy
          have hys : y ≠ s := by
            rcases List.mem_append.mp hy with hy | hy
            · exact hyss y hy
            · rcases List.mem_singleton.mp hy with rfl; exact hws
          simp [hys]
      | cons m ms =>
        have hn : nxt H t = m := hr2.1
        rw [hp, hn]
        have hsm : s ≠ m := fun hc => hs2 (by rw [hc]; exact List.mem_cons_self m ms)
        have hwm : w ≠ m := fun hc => hdj12 w (by simp) (hc ▸ List.mem_cons_self m ms)
        have hmms : m ∉ ms := (List.nodup_cons.mp hndl2).1
        rw [chainSeg_append (ys ++ [w]) ms, chainSeg_snoc]
        refine ⟨⟨?_, by simp [hwt], by simp [hwm, Ne.symm hwm]⟩, ?_⟩
        · refine chainSeg_frame hc1 ?_ ?_
          · intro y hy
            have hyw : y ≠ w := by
              rcases List.mem_cons.mp hy with rfl | hy2
              · exact Ne.symm hws
              · exact fun hc => hysw (hc ▸ hy2)
            simp [hyw]
          · intro y hy
            have hym : y ≠ m := by
              rcases List.mem_append.mp hy with hy | hy
              · exact fun hc =>
                  hdj12 y (List.mem_append.mpr (Or.inl hy)) (hc ▸ List.mem_cons_self m ms)
              · rcases List.mem_singleton.mp hy with rfl; exact hwm
            simp [hym]
        · refine chainSeg_frame hr2.2.2 ?_ ?_
          · intro y hy
            have hyw : y ≠ w := by
              rcases List.mem_cons.mp hy with rfl | hy2
              · exact Ne.symm hwm
              · exact fun hc =>
                  hdj12 w (by simp) (by rw [← hc]; exact List.mem_cons_of_mem m hy2)
            simp [hyw]
          · intro y hy
            have hym : y ≠ m := by
              rcases List.mem_append.mp hy with hy | hy
              · exact fun hc => hmms (hc ▸ hy)
              · rcases List.mem_singleton.mp hy with rfl; exact hsm
            simp [hym]
  · intro x hx
    simp only [List.mem_cons, List.mem_append, not_or] at hx
    obtain ⟨hxs, hx1, hxt, hx2⟩ := hx
    have hxp : x ≠ prv H t := by
      cases l₁ with
      | nil => rw [hr1.2]; exact hxs
      | cons a1 as1 =>
        rcases List.eq_nil_or_concat (a1 :: as1) with hceq | ⟨ys, w, hceq⟩
        · simp at hceq
        simp only [List.concat_eq_append] at hceq
        rw [hceq] at hr1 hx1
        rw [chainSeg_snoc] at hr1
        rw [hr1.2.2]
        intro hc
        exact hx1 (by rw [hc]; simp)
    have hxn : x ≠ nxt H t := by
      cases l₂ with
      | nil => rw [hr2.1]; exact hxs
      | cons m ms =>
        rw [hr2.1]
        exact fun hc => hx2 (hc ▸ List.mem_cons_self m ms)
    simp [setNext, setPrev, hxp, hxn]

theorem chainSeg_congr {H H2 : Heap} {a b : Nat} {xs : List Nat}
    (h : chainSeg H a xs b)
    (hagree : ∀ x ∈ a :: (xs ++ [b]), H2 x = H x) : chainSeg H2 a xs b := by
  refine chainSeg_frame h ?_ ?_
  · intro y hy
    have : H2 y = H y := by
      apply hagree
      rcases List.mem_cons.mp hy with rfl | hy
      · exact List.mem_cons_self _ _
      · exact List.mem_cons_of_mem _ (List.mem_append.mpr (Or.inl hy))
    unfold nxt; rw [this]
  · intro y hy
    have : H2 y = H y := hagree y (List.mem_cons_of_mem _ hy)
    unfold prv; rw [this]

theorem initHead_nxt (H : Heap) (a : Nat) : nxt (initHead H a) a = a := by
  simp [initHead]

theorem initHead_prv (H : Heap) (a : Nat) : prv (initHead H a) a = a := by
  simp [initHead]

theorem initHead_untouched (H : Heap) (a : Nat) :
    ∀ x, x ≠ a → initHead H a x = H x := by
  intro x hx
  simp [initHead, setNext, setPrev, hx]

theorem ring_initHead (H : Heap) (a : Nat) : chainSeg (initHead H a) a [] a :=
  ⟨initHead_nxt H a, initHead_prv H a⟩

theorem ring_list_del_init {H : Heap} {s t : Nat} {l₁ l₂ : List Nat}
    (hr : chainSeg H s (l₁ ++ t :: l₂) s) (hnd : (s :: (l₁ ++ t :: l₂)).Nodup) :
    chainSeg (list_del_init H t) s (l₁ ++ l₂) s ∧
      chainSeg (list_del_init H t) t [] t ∧
      ∀ x, x ∉ s :: (l₁ ++ t :: l₂) → list_del_init H t x = H x := by
  obtain ⟨hdel, huntouched⟩ := ring_list_del hr hnd
  have htring : t ∉ s :: (l₁ ++ l₂) := by
    simp only [List.nodup_cons, List.mem_cons, List.mem_append, not_or] at hnd
    have h1 : t ∉ l₁ ∧ t ∉ l₂ := by
      have := hnd.2
      rw [List.nodup_append] at this
      exact ⟨fun hc => this.2.2 hc (List.mem_cons_self t l₂),
        (List.nodup_cons.mp this.2.1).1⟩
    simp only [List.mem_cons, List.mem_append, not_or]
    exact ⟨fun hc => hnd.1.2.1 hc.symm, h1.1, h1.2⟩
  refine ⟨?_, ?_, ?_⟩
  · refine chainSeg_congr hdel ?_
    intro x hx
    apply initHead_untouched
    intro hc
    apply htring
    rw [← hc]
    rcases List.mem_cons.mp hx with rfl | hx
    · exact List.mem_cons_self _ _
    · rcases List.mem_append.mp hx with hx | hx
      · exact List.mem_cons_of_mem _ hx
      · rcases List.mem_singleton.mp hx with rfl
        exact List.mem_cons_self _ _
  · exact ring_initHead _ t
  · intro x hx
    have hxt : x ≠ t := by
      simp only [List.mem_cons, List.mem_append, not_or] at hx
      exact hx.2.2.1
    unfold list_del_init
    rw [initHead_untouched _ _ _ hxt]
    exact huntouched x hx

theorem ring_list_add_tail_mid {H : Heap} {s node c : Nat} {l₁ l₂ : List Nat}
    (hr : chainSeg H s (l₁ ++ c :: l₂) s) (hnd : (s :: (l₁ ++ c :: l₂)).Nodup)
    (hnode : node ∉ s :: (l₁ ++ c :: l₂)) :
    chainSeg (list_add_tail H node c) s (l₁ ++ node :: c :: l₂) s ∧
      ∀ x, x ∉ s :: (l₁ ++ c :: l₂) → x ≠ node → list_add_tail H node c x = H x := by
  rw [chainSeg_append] at hr
  obtain ⟨hr1, hr2⟩ := hr
  simp only [List.mem_cons, List.mem_append, not_or] at hnode
  obtain ⟨hnods, hnod1, hnodc, hnod2⟩ := hnode
  simp only [List.nodup_cons, List.mem_cons, List.mem_append, not_or] at hnd
  obtain ⟨⟨hs1, hsc, hs2⟩, hnd2⟩ := hnd
  have hdjc : c ∉ l₁ ∧ c ∉ l₂ := by
    rw [List.nodup_append] at hnd2
    exact ⟨fun hc => hnd2.2.2 hc (List.mem_cons_self c l₂),
      (List.nodup_cons.mp hnd2.2.1).1⟩
  have hdj12 : ∀ x ∈ l₁, x ∉ l₂ := by
    rw [List.nodup_append] at hnd2
    exact fun x hx hc => hnd2.2.2 hx (List.mem_cons_of_mem c hc)
  have hnd1 : l₁.Nodup := by
    rw [List.nodup_append] at hnd2
    exact hnd2.1
  constructor
  · rw [chainSeg_append]
    constructor
    · -- the segment from s through l₁ now ends at node
      cases l₁ with
      | nil =>
        have hp : prv H c = s := hr1.2
        rw [chainSeg_nil]
        constructor
        · simp [list_add_tail, hp, Ne.symm hnods]
        · simp [list_add_tail, hp, hnods, Ne.symm hnods, hnodc, Ne.symm hnodc, hsc]
      | cons a1 as1 =>
        rcases List.eq_nil_or_concat (a1 :: as1) with hceq | ⟨ys, w, hceq⟩
        · simp at hceq
        simp only [List.concat_eq_append] at hceq
        rw [hceq] at hr1 hs1 hnd1 hdjc hdj12 hnod1 ⊢
        rw [chainSeg_snoc] at hr1
        obtain ⟨hc1, hc2, hc3⟩ := hr1
        have hp : prv H c = w := hc3
        simp only [List.mem_append, List.mem_singleton, not_or] at hs1 hnod1
        have hws : w ≠ s := fun hc => hs1.2 hc.symm
        have hwc : w ≠ c := fun hc => hdjc.1 (by rw [← hc]; simp)
        have hwnode : w ≠ node := fun hc => hnod1.2 hc.symm
        have hysw : w ∉ ys := by
          rw [List.nodup_append] at hnd1
          exact fun hc => hnd1.2.2 hc (List.mem_singleton_self w)
        rw [chainSeg_snoc]
        refine ⟨?_, ?_, ?_⟩
        · refine chainSeg_frame hc1 ?_ ?_
          · intro y hy
            have hyw : y ≠ w := by
              rcases List.mem_cons.mp hy with rfl | hy2
              · exact Ne.symm hws
              · exact fun hc => hysw (hc ▸ hy2)
            have hyn : y ≠ node := by
              rcases List.mem_cons.mp hy with rfl | hy2
              · exact Ne.symm hnods
              · exact fun hc => hnod1.1 (hc ▸ hy2)
            simp [list_add_tail, hp, hyw, hyn]
          · intro y hy
            have hyn : y ≠ node := by
              rcases List.mem_append.mp hy with hy | hy
              · exact fun hc => hnod1.1 (hc ▸ hy)
              · rcases List.mem_singleton.mp hy with rfl; exact hwnode
            have hyc : y ≠ c := by
              rcases List.mem_append.mp hy with hy | hy
              · exact fun hc => hdjc.1 (by rw [← hc]; simp [hy])
              · rcases List.mem_singleton.mp hy with rfl; exact hwc
            simp [list_add_tail, hp, hyn, hyc]
        · simp [list_add_tail, hp, hwnode, Ne.symm hwnode, hwc, Ne.symm hwc]
        · simp [list_add_tail, hp, hwnode, Ne.symm hwnode, hwc, Ne.symm hwc,
            hnodc, Ne.symm hnodc]
    · -- the segment from node through c and l₂ back to s
      have hp : prv H c = s ∨ prv H c ∈ l₁ := by
        cases l₁ with
        | nil => exact Or.inl hr1.2
        | cons a1 as1 =>
          rcases List.eq_nil_or_concat (a1 :: as1) with hceq | ⟨ys, w, hceq⟩
          · simp at hceq
          simp only [List.concat_eq_append] at hceq
          rw [hceq] at hr1 ⊢
          rw [chainSeg_snoc] at hr1
          rw [hr1.2.2]
          exact Or.inr (by simp)
      have hpc : prv H c ≠ c := by
        rcases hp with hp | hp
        · rw [hp]; exact hsc
        · exact fun hc => hdjc.1 (hc ▸ hp)
      have hpnode : prv H c ≠ node := by
        rcases hp with hp | hp
        · rw [hp]; exact Ne.symm hnods
        · exact fun hc => hnod1 (hc ▸ hp)
      rw [chainSeg_cons]
      refine ⟨?_, ?_, ?_⟩
      · simp [list_add_tail, Ne.symm hpnode, hpnode]
      · simp [list_add_tail, hpc, Ne.symm hnodc]
      · refine chainSeg_frame hr2 ?_ ?_
        · intro y hy
          have hyp : y ≠ prv H c := by
            rcases hp with hp | hp
            · rw [hp]
              rcases List.mem_cons.mp hy with rfl | hy2
              · exact fun hc => hsc hc.symm
              · exact fun hc => hs2 (hc ▸ hy2)
            · rcases List.mem_cons.mp hy with rfl | hy2
              · exact fun hc => hdjc.1 (hc ▸ hp)
              · exact fun hc => hdj12 _ (hc ▸ hp) hy2
          have hyn : y ≠ node := by
            rcases List.mem_cons.mp hy with rfl | hy2
            · exact Ne.symm hnodc
            · exact fun hc => hnod2 (hc ▸ hy2)
          simp [list_add_tail, hyp, hyn]
        · intro y hy
          have hyc : y ≠ c := by
            rcases List.mem_append.mp hy with hy | hy
            · exact fun hc => hdjc.2 (hc ▸ hy)
            · rcases List.mem_singleton.mp hy with rfl; exact hsc
          have hyn : y ≠ node := by
            rcases List.mem_append.mp hy with hy | hy
            · exact fun hc => hnod2 (hc ▸ hy)
            · rcases List.mem_singleton.mp hy with rfl; exact Ne.symm hnods
          simp [list_add_tail, hyc, hyn]
  · intro x hx hxn
    simp only [List.mem_cons, List.mem_append, not_or] at hx
    obtain ⟨hxs, hx1, hxc, hx2⟩ := hx
    have hxp : x ≠ prv H c := by
      cases l₁ with
      | nil => rw [hr1.2]; exact hxs
      | cons a1 as1 =>
        rcases List.eq_nil_or_concat (a1 :: as1) with hceq | ⟨ys, w, hceq⟩
        · simp at hceq
        simp only [List.concat_eq_append] at hceq
        rw [hceq] at hr1 hx1
        rw [chainSeg_snoc] at hr1
        rw [hr1.2.2]
        exact fun hc => hx1 (by rw [hc]; simp)
    simp [list_add_tail, setNext, setPrev, hxp, hxn, hxc]

theorem two_ring_nodup {s1 s2 : Nat} {l1 l2 : List Nat}
    (hnd : (s1 :: (l1 ++ s2 :: l2)).Nodup) :
    s1 ∉ l1 ∧ s1 ≠ s2 ∧ s1 ∉ l2 ∧ l1.Nodup ∧ s2 ∉ l1 ∧
      (∀ x ∈ l1, x ∉ l2) ∧ s2 ∉ l2 ∧ l2.Nodup := by
  simp only [List.nodup_cons, List.mem_append, List.mem_cons, not_or] at hnd
  obtain ⟨⟨h1, h2, h3⟩, hnd2⟩ := hnd
  rw [List.nodup_append] at hnd2
  refine ⟨h1, h2, h3, hnd2.1, ?_, ?_, ?_, ?_⟩
  · exact fun hc => hnd2.2.2 hc (List.mem_cons_self s2 l2)
  · exact fun x hx hc => hnd2.2.2 hx (List.mem_cons_of_mem s2 hc)
  · exact (List.nodup_cons.mp hnd2.2.1).1
  · exact (List.nodup_cons.mp hnd2.2.1).2

theorem ring_splice_tail {H : Heap} {s1 s2 : Nat} {l1 l2 : List Nat}
    (hr1 : chainSeg H s1 l1 s1) (hr2 : chainSeg H s2 l2 s2)
    (hnd : (s1 :: (l1 ++ s2 :: l2)).Nodup) :
    chainSeg (list_splice_tail_init H s2 s1) s1 (l1 ++ l2) s1 ∧
      chainSeg (list_splice_tail_init H s2 s1) s2 [] s2 ∧
      ∀ x, x ∉ s1 :: (l1 ++ s2 :: l2) → list_splice_tail_init H s2 s1 x = H x := by
  obtain ⟨hs1l1, hs1s2, hs1l2, hl1nd, hs2l1, hdj, hs2l2, hl2nd⟩ := two_ring_nodup hnd
  cases l2 with
  | nil =>
    have hg : nxt H s2 = s2 := hr2.1
    unfold list_splice_tail_init
    rw [if_pos hg]
    exact ⟨by simpa using hr1, hr2, fun x _ => rfl⟩
  | cons m ms =>
    obtain ⟨h21, h22, h23⟩ := hr2
    have hms2 : m ≠ s2 := fun hc => hs2l2 (hc ▸ List.mem_cons_self m ms)
    have hg : ¬ nxt H s2 = s2 := by rw [h21]; exact hms2
    have hmm : m ∉ ms := (List.nodup_cons.mp hl2nd).1
    have hs1m : s1 ≠ m := fun hc => hs1l2 (hc ▸ List.mem_cons_self m ms)
    -- p1 is the last node of s1's ring
    -- the last element of the second ring
    have hw2 : (ms = [] ∧ prv H s2 = m) ∨
        ∃ zs w2, ms = zs ++ [w2] ∧ prv H s2 = w2 ∧ chainSeg H m zs w2 ∧
          nxt H w2 = s2 := by
      rcases List.eq_nil_or_concat ms with rfl | ⟨zs, w2, hceq⟩
      · exact Or.inl ⟨rfl, h23.2⟩
      · simp only [List.concat_eq_append] at hceq
        rw [hceq] at h23
        rw [chainSeg_snoc] at h23
        exact Or.inr ⟨zs, w2, hceq, h23.2.2, h23.1, h23.2.1⟩
    have hpwmem : prv H s2 ∈ m :: ms := by
      rcases hw2 with ⟨_, hv⟩ | ⟨zs, w2, hceq2, hv, _, _⟩
      · rw [hv]; exact List.mem_cons_self m ms
      · rw [hv, hceq2]; simp
    have hs1pw : s1 ≠ prv H s2 := fun hc => hs1l2 (by rw [hc]; exact hpwmem)
    unfold list_splice_tail_init
    rw [if_neg hg]
    dsimp only
    rw [h21]
    refine ⟨?_, ?_, ?_⟩
    · -- the first ring now carries l1 ++ m :: ms
      rw [chainSeg_append]
      constructor
      · -- from s1 through l1, ending at m
        cases l1 with
        | nil =>
          have hp : prv H s1 = s1 := hr1.2
          rw [hp, chainSeg_nil]
          constructor
          · simp [initHead, hs1s2, hms2, hs1m, Ne.symm hs1m, hs1pw, Ne.symm hs1pw]
          · have hmw2 : m ≠ prv H s2 ∨ ms = [] := by
              rcases hw2 with ⟨rfl, _⟩ | ⟨zs, w2, hceq, hv, _, _⟩
              · exact Or.inr rfl
              · rw [hv]
                left
                intro hc
                apply hmm
                rw [hceq, hc]
                simp
            rcases hmw2 with hmw2 | rfl
            · simp [initHead, hms2, hs1m, Ne.symm hs1m, hmw2]
            · have hv : prv H s2 = m := h23.2
              rw [hv]
              simp [initHead, hms2, hs1m, Ne.symm hs1m]
        | cons a1 as1 =>
          rcases List.eq_nil_or_concat (a1 :: as1) with hceq | ⟨ys, w1, hceq⟩
          · simp at hceq
          simp only [List.concat_eq_append] at hceq
          rw [hceq] at hr1 hs1l1 hl1nd hs2l1 hdj ⊢
          rw [chainSeg_snoc] at hr1
          obtain ⟨hc1, hc2, hc3⟩ := hr1
          rw [hc3]
          simp only [List.mem_append, List.mem_singleton, not_or] at hs1l1 hs2l1
          have hw1s1 : w1 ≠ s1 := fun hc => hs1l1.2 hc.symm
          have hw1s2 : w1 ≠ s2 := fun hc => hs2l1.2 hc.symm
          have hw1m : w1 ≠ m := fun hc =>
            hdj w1 (by simp) (hc ▸ List.mem_cons_self m ms)
          have hw1ys : w1 ∉ ys := by
            rw [List.nodup_append] at hl1nd
            exact fun hc => hl1nd.2.2 hc (List.mem_singleton_self w1)
          have hw1l2 : w1 ∉ prv H s2 :: [] ∨ True := Or.inr trivial
          have hw1w2 : w1 ≠ prv H s2 := by
            rcases hw2 with ⟨_, hv⟩ | ⟨zs, w2, hceq2, hv, _, _⟩
            · rw [hv]; exact hw1m
            · rw [hv]
              intro hc
              apply hdj w1 (by simp)
              rw [hceq2, hc]
              simp
          rw [chainSeg_snoc]
          refine ⟨?_, ?_, ?_⟩
          · refine chainSeg_frame hc1 ?_ ?_
            · intro y hy
              have hyw1 : y ≠ w1 := by
                rcases List.mem_cons.mp hy with rfl | hy2
                · exact Ne.symm hw1s1
                · exact fun hc => hw1ys (hc ▸ hy2)
              have hys2 : y ≠ s2 := by
                rcases List.mem_cons.mp hy with rfl | hy2
                · exact hs1s2
                · exact fun hc => hs2l1.1 (hc ▸ hy2)
              have hyw2 : y ≠ prv H s2 := by
                rcases hw2 with ⟨_, hv⟩ | ⟨zs, w2, hceq2, hv, _, _⟩
                · rw [hv]
                  rcases List.mem_cons.mp hy with rfl | hy2
                  · exact hs1m
                  · exact fun hc =>
                      hdj y (by simp [hy2]) (hc ▸ List.mem_cons_self m ms)
                · rw [hv]
                  rcases List.mem_cons.mp hy with rfl | hy2
                  · intro hc
                    apply hs1l2
                    rw [hceq2, hc]
                    simp
                  · intro hc
                    apply hdj y (by simp [hy2])
                    rw [hceq2, hc]
                    simp
              simp [initHead, hyw1, hys2, hyw2]
            · intro y hy
              have hym : y ≠ m := by
                rcases List.mem_append.mp hy with hy | hy
                · exact fun hc => hdj y (by simp [hy]) (hc ▸ List.mem_cons_self m ms)
                · rcases List.mem_singleton.mp hy with rfl; exact hw1m
              have hys1 : y ≠ s1 := by
                rcases List.mem_append.mp hy with hy | hy
                · exact fun hc => hs1l1.1 (hc ▸ hy)
                · rcases List.mem_singleton.mp hy with rfl; exact hw1s1
              have hys2 : y ≠ s2 := by
                rcases List.mem_append.mp hy with hy | hy
                · exact fun hc => hs2l1.1 (hc ▸ hy)
                · rcases List.mem_singleton.mp hy with rfl; exact hw1s2
              simp [initHead, hym, hys1, hys2]
          · simp [initHead, hw1s2, hw1w2]
          · simp [initHead, hms2, hs1m, Ne.symm hs1m, Ne.symm hw1m]
      · -- from m through ms, ending back at s1
        rcases hw2 with ⟨rfl, hv⟩ | ⟨zs, w2, hceq2, hv, hcz, hnw2⟩
        · rw [hv, chainSeg_nil]
          have hp1ne : prv H s1 ≠ m := by
            cases l1 with
            | nil => rw [hr1.2]; exact hs1m
            | cons a1 as1 =>
              rcases List.eq_nil_or_concat (a1 :: as1) with hceq | ⟨ys, w1, hceq⟩
              · simp at hceq
              simp only [List.concat_eq_append] at hceq
              rw [hceq] at hr1 hdj
              rw [chainSeg_snoc] at hr1
              rw [hr1.2.2]
              exact fun hc => hdj w1 (by simp) (hc ▸ List.mem_cons_self m [])
          constructor
          · simp [initHead, hms2, hp1ne]
          · simp [initHead, hs1s2, hs1m, Ne.symm hs1m]
        · rw [hv, hceq2, chainSeg_snoc]
          have hmzs : m ∉ zs := fun hc => hmm (by rw [hceq2]; simp [hc])
          have hw2zs : w2 ∉ zs := by
            have := hl2nd
            rw [hceq2] at this
            rw [List.nodup_cons, List.nodup_append] at this
            exact fun hc => this.2.2.2 hc (List.mem_singleton_self w2)
          have hw2m : w2 ≠ m := by
            intro hc
            apply hmm
            rw [hceq2, ← hc]
            simp
          have hw2s1 : w2 ≠ s1 := by
            intro hc
            apply hs1l2
            rw [hceq2, ← hc]
            simp
          have hw2s2 : w2 ≠ s2 := by
            intro hc
            apply hs2l2
            rw [hceq2, ← hc]
            simp
          have hp1notin : ∀ y, y ∈ m :: zs → y ≠ prv H s1 := by
            intro y hy
            have hyl2 : y ∈ m :: ms := by
              rcases List.mem_cons.mp hy with hym | hy2
              · rw [hym]; exact List.mem_cons_self m ms
              · rw [hceq2]
                exact List.mem_cons_of_mem m (List.mem_append.mpr (Or.inl hy2))
            cases l1 with
            | nil =>
              rw [hr1.2]
              exact fun hc => hs1l2 (hc ▸ hyl2)
            | cons a1 as1 =>
              rcases List.eq_nil_or_concat (a1 :: as1) with hceq | ⟨ys, w1, hceq⟩
              · simp at hceq
              simp only [List.concat_eq_append] at hceq
              rw [hceq] at hr1 hdj
              rw [chainSeg_snoc] at hr1
              rw [hr1.2.2]
              exact fun hc => hdj w1 (by simp) (hc ▸ hyl2)
          refine ⟨?_, ?_, ?_⟩
          · refine chainSeg_frame hcz ?_ ?_
            · intro y hy
              have hyw2 : y ≠ w2 := by
                rcases List.mem_cons.mp hy with rfl | hy2
                · exact Ne.symm hw2m
                · exact fun hc => hw2zs (hc ▸ hy2)
              have hys2 : y ≠ s2 := by
                rcases List.mem_cons.mp hy with rfl | hy2
                · exact hms2
                · intro hc
                  apply hs2l2
                  rw [hceq2]
                  exact List.mem_cons_of_mem m (List.mem_append.mpr (Or.inl (hc ▸ hy2)))
              have hyp1 : y ≠ prv H s1 := hp1notin y hy
              simp [initHead, hyw2, hys2, hyp1]
            · intro y hy
              have hym : y ≠ m := by
                rcases List.mem_append.mp hy with hy | hy
                · exact fun hc => hmzs (hc ▸ hy)
                · rcases List.mem_singleton.mp hy with rfl; exact hw2m
              have hys1 : y ≠ s1 := by
                rcases List.mem_append.mp hy with hy | hy
                · intro hc
                  apply hs1l2
                  rw [hceq2]
                  exact List.mem_cons_of_mem m (List.mem_append.mpr (Or.inl (hc ▸ hy)))
                · rcases List.mem_singleton.mp hy with rfl; exact hw2s1
              have hys2 : y ≠ s2 := by
                rcases List.mem_append.mp hy with hy | hy
                · intro hc
                  apply hs2l2
                  rw [hceq2]
                  exact List.mem_cons_of_mem m (List.mem_append.mpr (Or.inl (hc ▸ hy)))
                · rcases List.mem_singleton.mp hy with rfl; exact hw2s2
              simp [initHead, hym, hys1, hys2]
          · simp [initHead, hw2s2]
          · simp [initHead, hs1s2, hw2s1, Ne.symm hw2s1, hs1m, Ne.symm hs1m]
    · -- the second ring ends empty
      exact ⟨by simp [initHead], by simp [initHead]⟩
    · -- nothing outside the two rings is touched
      intro x hx
      simp only [List.mem_cons, List.mem_append, not_or] at hx
      obtain ⟨hxs1, hx1, hxs2, hxm, hxms⟩ := hx
      have hxw2 : x ≠ prv H s2 := by
        rcases hw2 with ⟨_, hv⟩ | ⟨zs, w2, hceq2, hv, _, _⟩
        · rw [hv]; exact hxm
        · rw [hv]
          intro hc
          apply hxms
          rw [hceq2, hc]
          simp
      have hxp1 : x ≠ prv H s1 := by
        cases l1 with
        | nil => rw [hr1.2]; exact hxs1
        | cons a1 as1 =>
          rcases List.eq_nil_or_concat (a1 :: as1) with hceq | ⟨ys, w1, hceq⟩
          · simp at hceq
          simp only [List.concat_eq_append] at hceq
          rw [hceq] at hr1 hx1
          rw [chainSeg_snoc] at hr1
          rw [hr1.2.2]
          exact fun hc => hx1 (by rw [hc]; simp)
      simp [initHead, setNext, setPrev, hxs1, hxs2, hxm, hxw2, hxp1]

theorem ring_cut {H : Heap} {s s2 t : Nat} {l₁ l₂ : List Nat}
    (hr : chainSeg H s (l₁ ++ t :: l₂) s) (hnd : (s :: (l₁ ++ t :: l₂)).Nodup)
    (hfr : s2 ∉ s :: (l₁ ++ t :: l₂)) :
    chainSeg (list_cut_position H s2 s t) s2 (l₁ ++ [t]) s2 ∧
      chainSeg (list_cut_position H s2 s t) s l₂ s ∧
      ∀ x, x ∉ s :: (l₁ ++ t :: l₂) → x ≠ s2 → list_cut_position H s2 s t x = H x := by
  rw [chainSeg_append] at hr
  obtain ⟨hr1, hr2⟩ := hr
  simp only [List.nodup_cons, List.mem_cons, List.mem_append, not_or] at hnd
  obtain ⟨⟨hs1, hst, hs2l⟩, hnd2⟩ := hnd
  simp only [List.mem_cons, List.mem_append, not_or] at hfr
  obtain ⟨hfs, hf1, hft, hf2⟩ := hfr
  have hdjt : t ∉ l₁ ∧ t ∉ l₂ := by
    rw [List.nodup_append] at hnd2
    exact ⟨fun hc => hnd2.2.2 hc (List.mem_cons_self t l₂),
      (List.nodup_cons.mp hnd2.2.1).1⟩
  have hdj12 : ∀ x ∈ l₁, x ∉ l₂ := by
    rw [List.nodup_append] at hnd2
    exact fun x hx hc => hnd2.2.2 hx (List.mem_cons_of_mem t hc)
  have hnd1 : l₁.Nodup := by
    rw [List.nodup_append] at hnd2
    exact hnd2.1
  have hndl2 : l₂.Nodup := by
    rw [List.nodup_append] at hnd2
    exact (List.nodup_cons.mp hnd2.2.1).2
  have hg1 : ¬ nxt H s = s := by
    cases l₁ with
    | nil =>
      rw [hr1.1]
      exact fun hc => hst hc.symm
    | cons x xs =>
      rw [hr1.1]
      intro hc
      exact hs1 (by rw [← hc]; simp)
  have hg2 : ¬ t = s := fun hc => hst hc.symm
  have hrest : nxt H t = s ∧ l₂ = [] ∨ ∃ m ms, l₂ = m :: ms ∧ nxt H t = m := by
    cases l₂ with
    | nil => exact Or.inl ⟨hr2.1, rfl⟩
    | cons m ms => exact Or.inr ⟨m, ms, rfl, hr2.1⟩
  have hrestne : ∀ y, y ∈ l₁ ∨ y = t → y ≠ nxt H t := by
    intro y hy
    rcases hrest with ⟨hv, _⟩ | ⟨m, ms, hceq, hv⟩
    · rw [hv]
      rcases hy with hy | rfl
      · exact fun hc => hs1 (hc ▸ hy)
      · exact fun hc => hst hc.symm
    · rw [hv]
      rcases hy with hy | rfl
      · intro hc
        apply hdj12 y hy
        rw [hceq, hc]
        exact List.mem_cons_self m ms
      · intro hc
        apply hdjt.2
        rw [hceq, hc]
        exact List.mem_cons_self m ms
  unfold list_cut_position
  rw [if_neg hg1, if_neg hg2]
  dsimp only
  refine ⟨?_, ?_, ?_⟩
  · -- the new ring under s2 holds l₁ ++ [t]
    rw [chainSeg_snoc]
    refine ⟨?_, ?_, ?_⟩
    · cases l₁ with
      | nil =>
        have hv : nxt H s = t := hr1.1
        rw [hv, chainSeg_nil]
        constructor
        · simp [hft]
        · simp [Ne.symm hft]
      | cons x xs =>
        have hv : nxt H s = x := hr1.1
        obtain ⟨hv1, hv2, hv3⟩ := hr1
        rw [hv]
        simp only [List.mem_cons, not_or] at hs1 hf1
        have hdjt1 : t ∉ x :: xs := hdjt.1
        simp only [List.mem_cons, not_or] at hdjt1
        have hxs : x ≠ s := fun hc => hs1.1 hc.symm
        have hxt : x ≠ t := fun hc => hdjt1.1 hc.symm
        have hxs2 : x ≠ s2 := fun hc => hf1.1 hc.symm
        rw [chainSeg_cons]
        refine ⟨?_, ?_, ?_⟩
        · simp [hft, hfs]
        · simp [hxs2, hxt, hxs, Ne.symm hft]
        · refine chainSeg_frame hv3 ?_ ?_
          · intro y hy
            have hys : y ≠ s := by
              rcases List.mem_cons.mp hy with rfl | hy2
              · exact hxs
              · exact fun hc => hs1.2 (hc ▸ hy2)
            have hys2 : y ≠ s2 := by
              rcases List.mem_cons.mp hy with rfl | hy2
              · exact hxs2
              · exact fun hc => hf1.2 (hc ▸ hy2)
            have hyt : y ≠ t := by
              rcases List.mem_cons.mp hy with rfl | hy2
              · exact hxt
              · exact fun hc => hdjt1.2 (hc ▸ hy2)
            simp [hys, hys2, hyt]
          · intro y hy
            have hyn : y ≠ nxt H t := by
              rcases List.mem_append.mp hy with hy | hy
              · exact hrestne y (Or.inl (List.mem_cons_of_mem x hy))
              · rw [List.mem_singleton.mp hy]
                exact hrestne t (Or.inr rfl)
            have hyx : y ≠ x := by
              rcases List.mem_append.mp hy with hy | hy
              · exact fun hc => (List.nodup_cons.mp hnd1).1 (hc ▸ hy)
              · rcases List.mem_singleton.mp hy with rfl
                exact Ne.symm hxt
            have hys2 : y ≠ s2 := by
              rcases List.mem_append.mp hy with hy | hy
              · exact fun hc => hf1.2 (hc ▸ hy)
              · rcases List.mem_singleton.mp hy with rfl
                exact Ne.symm hft
            simp [hyn, hyx, hys2]
    · simp
    · simp
  · -- the source ring keeps l₂
    rcases hrest with ⟨hv, rfl⟩ | ⟨m, ms, hceq, hv⟩
    · rw [hv, chainSeg_nil]
      have hsf : s ≠ nxt H s := fun hc => hg1 hc.symm
      constructor
      · simp [Ne.symm hg2, Ne.symm hfs, hsf]
      · simp [Ne.symm hfs, hsf, Ne.symm hg2]
    · rw [hceq] at hr2 hs2l hf2 hndl2 ⊢
      have hdjt2 : t ∉ m :: ms := hceq ▸ hdjt.2
      have hdj12m : ∀ x ∈ l₁, x ∉ m :: ms := fun x hx => hceq ▸ hdj12 x hx
      obtain ⟨hv1, hv2, hv3⟩ := hr2
      rw [hv]
      simp only [List.mem_cons, not_or] at hs2l hf2 hdjt2
      have hms : m ≠ s := fun hc => hs2l.1 hc.symm
      have hmt : m ≠ t := fun hc => hdjt2.1 hc.symm
      have hms2 : m ≠ s2 := fun hc => hf2.1 hc.symm
      have hmf : m ≠ nxt H s := by
        cases l₁ with
        | nil =>
          rw [hr1.1]
          exact hmt
        | cons x xs =>
          rw [hr1.1]
          exact fun hc => hdj12m x (List.mem_cons_self x xs) (by rw [← hc]; simp)
      rw [chainSeg_cons]
      refine ⟨?_, ?_, ?_⟩
      · simp [Ne.symm hg2, Ne.symm hfs]
      · simp [hms, hms2, hmf, hmt, Ne.symm hg2]
      · refine chainSeg_frame hv3 ?_ ?_
        · intro y hy
          have hys : y ≠ s := by
            rcases List.mem_cons.mp hy with rfl | hy2
            · exact hms
            · exact fun hc => hs2l.2 (hc ▸ hy2)
          have hys2 : y ≠ s2 := by
            rcases List.mem_cons.mp hy with rfl | hy2
            · exact hms2
            · exact fun hc => hf2.2 (hc ▸ hy2)
          have hyt : y ≠ t := by
            rcases List.mem_cons.mp hy with rfl | hy2
            · exact hmt
            · exact fun hc => hdjt2.2 (hc ▸ hy2)
          simp [hys, hys2, hyt]
        · intro y hy
          have hym : y ≠ m := by
            rcases List.mem_append.mp hy with hy | hy
            · exact fun hc => (List.nodup_cons.mp hndl2).1 (hc ▸ hy)
            · rcases List.mem_singleton.mp hy with rfl
              exact Ne.symm hms
          have hyf : y ≠ nxt H s := by
            rcases List.mem_append.mp hy with hy | hy
            · cases l₁ with
              | nil =>
                rw [hr1.1]
                exact fun hc => hdjt2.2 (hc ▸ hy)
              | cons x xs =>
                rw [hr1.1]
                exact fun hc =>
                  hdj12m x (List.mem_cons_self x xs)
                    (by rw [← hc]; exact List.mem_cons_of_mem m hy)
            · rcases List.mem_singleton.mp hy with rfl
              cases l₁ with
              | nil =>
                rw [hr1.1]
                exact Ne.symm hg2
              | cons x xs =>
                rw [hr1.1]
                exact fun hc => hs1 (by rw [hc]; exact List.mem_cons_self x xs)
          have hys2 : y ≠ s2 := by
            rcases List.mem_append.mp hy with hy | hy
            · exact fun hc => hf2.2 (hc ▸ hy)
            · rcases List.mem_singleton.mp hy with rfl
              exact Ne.symm hfs
          simp [hym, hyf, hys2]
  · intro x hx hxs2
    simp only [List.mem_cons, List.mem_append, not_or] at hx
    obtain ⟨hxs, hx1, hxt, hx2⟩ := hx
    have hxf : x ≠ nxt H s := by
      cases l₁ with
      | nil =>
        rw [hr1.1]
        exact hxt
      | cons z zs =>
        rw [hr1.1]
        simp only [List.mem_cons, not_or] at hx1
        exact hx1.1
    have hxn : x ≠ nxt H t := by
      rcases hrest with ⟨hv, _⟩ | ⟨m, ms, hceq, hv⟩
      · rw [hv]; exact hxs
      · rw [hv]
        rw [hceq] at hx2
        simp only [List.mem_cons, not_or] at hx2
        exact hx2.1
    simp [setNext, setPrev, hxs, hxt, hxs2, hxf, hxn]

theorem ring_nxt_mem {H : Heap} {s : Nat} {l : List Nat} (hr : chainSeg H s l s) :
    ∀ a, a ∈ s :: l → nxt H a ∈ s :: l := by
  intro a ha
  rcases List.mem_cons.mp ha with rfl | ha
  · cases l with
    | nil => rw [hr.1]; exact List.mem_cons_self _ _
    | cons x xs => rw [hr.1]; simp
  · obtain ⟨u, v, rfl⟩ := List.append_of_mem ha
    rw [chainSeg_append] at hr
    cases v with
    | nil => rw [hr.2.1]; exact List.mem_cons_self _ _
    | cons m ms =>
      rw [hr.2.1]
      simp only [List.mem_cons, List.mem_append]
      tauto

theorem ring_prv_mem {H : Heap} {s : Nat} {l : List Nat} (hr : chainSeg H s l s) :
    ∀ a, a ∈ s :: l → prv H a ∈ s :: l := by
  intro a ha
  rcases List.mem_cons.mp ha with rfl | ha
  · rcases List.eq_nil_or_concat l with rfl | ⟨ys, w, hceq⟩
    · rw [hr.2]; exact List.mem_cons_self _ _
    · simp only [List.concat_eq_append] at hceq
      rw [hceq] at hr ⊢
      rw [chainSeg_snoc] at hr
      rw [hr.2.2]
      simp
  · obtain ⟨u, v, rfl⟩ := List.append_of_mem ha
    rw [chainSeg_append] at hr
    rcases List.eq_nil_or_concat u with rfl | ⟨ys, w, hceq⟩
    · rw [hr.1.2]; exact List.mem_cons_self _ _
    · simp only [List.concat_eq_append] at hceq
      rw [hceq] at hr ⊢
      rw [chainSeg_snoc] at hr
      rw [hr.1.2.2]
      simp only [List.mem_cons, List.mem_append]
      simp

theorem midWalkP_mem {H : Heap} {l : List Nat} :
    ∀ (fuel : Nat) (f b : Nat), f ∈ l → b ∈ l →
      (f = b ∨ ∃ seg, chainSeg H f seg b ∧ ∀ x ∈ seg, x ∈ l) →
      midWalkP H fuel f b ∈ l := by
  intro fuel
  induction fuel with
  | zero => intro f b hf _ _; exact hf
  | succ n ih =>
    intro f b hf hb hseg
    show (if f = b ∨ nxt H f = b then f else midWalkP H n (nxt H f) (prv H b)) ∈ l
    by_cases hstop : f = b ∨ nxt H f = b
    · rw [if_pos hstop]; exact hf
    · rw [if_neg hstop]
      rcases hseg with rfl | ⟨seg, hcs, hsub⟩
      · exact absurd (Or.inl rfl) hstop
      cases seg with
      | nil => exact absurd (Or.inr hcs.1) hstop
      | cons z seg2 =>
        obtain ⟨hz1, hz2, hz3⟩ := hcs
        rcases List.eq_nil_or_concat seg2 with rfl | ⟨zs, w, hceq⟩
        · -- the two cursors become equal after this step
          rw [hz1, hz3.2]
          exact ih z z (hsub z (by simp)) (hsub z (by simp)) (Or.inl rfl)
        · simp only [List.concat_eq_append] at hceq
          rw [hceq] at hz3 hsub
          rw [chainSeg_snoc] at hz3
          rw [hz1, hz3.2.2]
          refine ih z w (hsub z (by simp)) (hsub w (by simp)) ?_
          exact Or.inr ⟨zs, hz3.1, fun x hx => hsub x (by simp [hx])⟩

theorem qGetMidP_mem {H : Heap} {s : Nat} {l : List Nat} (hr : chainSeg H s l s)
    (hne : l ≠ []) (fuel : Nat) : qGetMidP H fuel s ∈ l := by
  unfold qGetMidP
  split
  · cases l with
    | nil => exact absurd rfl hne
    | cons x xs => rw [hr.1]; exact List.mem_cons_self _ _
  · cases l with
    | nil => exact absurd rfl hne
    | cons x xs =>
      obtain ⟨h1, h2, h3⟩ := hr
      rw [h1]
      rcases List.eq_nil_or_concat xs with rfl | ⟨zs, w, hceq⟩
      · rw [h3.2]
        exact midWalkP_mem fuel x x (by simp) (by simp) (Or.inl rfl)
      · simp only [List.concat_eq_append] at hceq
        rw [hceq] at h3 ⊢
        rw [chainSeg_snoc] at h3
        rw [h3.2.2]
        refine midWalkP_mem fuel x w (by simp) (by simp) ?_
        exact Or.inr ⟨zs, h3.1, fun y hy => by simp [hy]⟩

theorem ring_length_le {s fr : Nat} {l : List Nat} (hnd : (s :: l).Nodup)
    (hb : ∀ a ∈ s :: l, a < fr) : l.length + 1 ≤ fr := by
  have h1 : (s :: l).length ≤ (Finset.range fr).card := by
    rw [← List.toFinset_card_of_nodup hnd]
    apply Finset.card_le_card
    intro a ha
    rw [List.mem_toFinset] at ha
    rw [Finset.mem_range]
    exact hb a ha
  simpa using h1

theorem delDupLoop_succ (val : Nat → CStr) (s n : Nat) (H : Heap) (e : Nat) :
    delDupLoop val s (n + 1) H e =
      if e = s then H
      else
        if nxt H e ≠ s ∧ strcmp (val e) (val (nxt H e)) = .eq then
          delDupLoop val s n (list_del H e) (nxt H e)
        else delDupLoop val s n H (nxt H e) := rfl

theorem delDupLoop_pres {val : Nat → CStr} {s : Nat} :
    ∀ (fuel : Nat) (H : Heap) (e : Nat) (l : List Nat),
      chainSeg H s l s → (s :: l).Nodup → (e = s ∨ e ∈ l) →
      ∃ lr, chainSeg (delDupLoop val s fuel H e) s lr s ∧ (s :: lr).Nodup ∧
        (∀ a ∈ lr, a ∈ l) ∧
        (∀ x, x ∉ s :: l → delDupLoop val s fuel H e x = H x) := by
  intro fuel
  induction fuel with
  | zero =>
    exact fun H e l h1 h2 _ => ⟨l, h1, h2, fun a ha => ha, fun _ _ => rfl⟩
  | succ n ih =>
    intro H e l h1 h2 he
    rw [delDupLoop_succ]
    by_cases hes : e = s
    · rw [if_pos hes]
      exact ⟨l, h1, h2, fun a ha => ha, fun _ _ => rfl⟩
    · rw [if_neg hes]
      have hel : e ∈ l := he.resolve_left hes
      have hsft : nxt H e = s ∨ nxt H e ∈ l := by
        have := ring_nxt_mem h1 e (List.mem_cons_of_mem s hel)
        exact List.mem_cons.mp this
      by_cases hdel : nxt H e ≠ s ∧ strcmp (val e) (val (nxt H e)) = .eq
      · rw [if_pos hdel]
        obtain ⟨u, v, rfl⟩ := List.append_of_mem hel
        obtain ⟨hring, huntouched⟩ := ring_list_del h1 h2
        have hnd2 : (s :: (u ++ v)).Nodup := by
          refine h2.sublist ?_
          refine List.Sublist.cons₂ s ?_
          exact List.Sublist.append_left (List.Sublist.cons e (List.Sublist.refl v)) u
        have hsft2 : nxt H e = s ∨ nxt H e ∈ u ++ v := by
          rcases hsft with hv | hv
          · exact Or.inl hv
          · -- the successor of e inside the ring lies in v
            rw [chainSeg_append] at h1
            cases v with
            | nil => exact absurd h1.2.1 hdel.1
            | cons m ms =>
              rw [h1.2.1]
              exact Or.inr (by simp)
        obtain ⟨lr, hr1, hr2, hr3, hr4⟩ :=
          ih (list_del H e) (nxt H e) (u ++ v) hring hnd2 hsft2
        refine ⟨lr, hr1, hr2, ?_, ?_⟩
        · intro a ha
          have := hr3 a ha
          simp only [List.mem_append] at this ⊢
          rcases this with h | h
          · exact Or.inl h
          · exact Or.inr (List.mem_cons_of_mem e h)
        · intro x hx
          have hx2 : x ∉ s :: (u ++ v) := by
            simp only [List.mem_cons, List.mem_append, not_or] at hx ⊢
            exact ⟨hx.1, hx.2.1, hx.2.2.2⟩
          rw [hr4 x hx2, huntouched x hx]
      · rw [if_neg hdel]
        exact ih H (nxt H e) l h1 h2 hsft

theorem swapStep_nxt (H : Heap) (node1 : Nat) (hp2 : nxt H node1 ≠ prv H node1)
    (y : Nat) :
    nxt (swapStep H node1) y =
      if y = nxt H node1 then node1
      else if y = node1 then nxt H (nxt H node1)
      else if y = prv H node1 then nxt H node1
      else nxt H y := by
  unfold swapStep
  dsimp only
  simp only [nxt_setPrev, nxt_setNext, prv_setNext, prv_setPrev]
  rw [if_neg hp2]

theorem swapStep_prv (H : Heap) (node1 : Nat) (hp2 : nxt H node1 ≠ prv H node1)
    (y : Nat) :
    prv (swapStep H node1) y =
      if y = node1 then nxt H node1
      else if y = nxt H (nxt H node1) then node1
      else if y = nxt H node1 then prv H node1
      else prv H y := by
  unfold swapStep
  dsimp only
  simp only [nxt_setPrev, nxt_setNext, prv_setNext, prv_setPrev]
  rw [if_neg hp2]

theorem mid2_nodup {s node1 node2 : Nat} {l₁ l₃ : List Nat}
    (hnd : (s :: (l₁ ++ node1 :: node2 :: l₃)).Nodup) :
    s ∉ l₁ ∧ s ≠ node1 ∧ s ≠ node2 ∧ s ∉ l₃ ∧ l₁.Nodup ∧ node1 ∉ l₁ ∧
      node2 ∉ l₁ ∧ (∀ x ∈ l₁, x ∉ l₃) ∧ node1 ≠ node2 ∧ node1 ∉ l₃ ∧
      node2 ∉ l₃ ∧ l₃.Nodup := by
  simp only [List.nodup_cons, List.mem_append, List.mem_cons, not_or] at hnd
  obtain ⟨⟨h1, h2, h3, h4⟩, hnd2⟩ := hnd
  rw [List.nodup_append] at hnd2
  obtain ⟨ha, hb, hc⟩ := hnd2
  simp only [List.nodup_cons, List.mem_cons, not_or] at hb
  obtain ⟨⟨hb1, hb2⟩, hb3, hb4⟩ := hb
  refine ⟨h1, h2, h3, h4, ha, ?_, ?_, ?_, hb1, hb2, hb3, hb4⟩
  · exact fun hcm => hc hcm (List.mem_cons_self _ _)
  · exact fun hcm => hc hcm (List.mem_cons_of_mem _ (List.mem_cons_self _ _))
  · exact fun x hx hxm => hc hx (List.mem_cons_of_mem _ (List.mem_cons_of_mem _ hxm))

theorem ring_swapStep {H : Heap} {s node1 node2 : Nat} {l₁ l₃ : List Nat}
    (hr : chainSeg H s (l₁ ++ node1 :: node2 :: l₃) s)
    (hnd : (s :: (l₁ ++ node1 :: node2 :: l₃)).Nodup) :
    chainSeg (swapStep H node1) s (l₁ ++ node2 :: node1 :: l₃) s ∧
      nxt (swapStep H node1) node1 = nxt H node2 ∧
      ∀ x, x ∉ s :: (l₁ ++ node1 :: node2 :: l₃) → swapStep H node1 x = H x := by
  obtain ⟨hs1, hsn1, hsn2, hs3, hnd1, hn1l1, hn2l1, hl1l3, hn12, hn1l3, hn2l3, hnd3⟩ :=
    mid2_nodup hnd
  rw [chainSeg_append] at hr
  obtain ⟨hr1, hr2⟩ := hr
  obtain ⟨hadj, hadj2, hr3⟩ := hr2
  -- hadj : nxt H node1 = node2, hadj2 : prv H node2 = node1, hr3 : chainSeg H node2 l₃ s
  have hpv : l₁ = [] ∧ prv H node1 = s ∨
      ∃ ys w, l₁ = ys ++ [w] ∧ prv H node1 = w := by
    cases l₁ with
    | nil => exact Or.inl ⟨rfl, hr1.2⟩
    | cons a1 as1 =>
      rcases List.eq_nil_or_concat (a1 :: as1) with hceq | ⟨ys, w, hceq⟩
      · simp at hceq
      simp only [List.concat_eq_append] at hceq
      refine Or.inr ⟨ys, w, hceq, ?_⟩
      rw [hceq] at hr1
      rw [chainSeg_snoc] at hr1
      exact hr1.2.2
  have hd : l₃ = [] ∧ nxt H node2 = s ∨
      ∃ m ms, l₃ = m :: ms ∧ nxt H node2 = m := by
    cases l₃ with
    | nil => exact Or.inl ⟨rfl, hr3.1⟩
    | cons m ms => exact Or.inr ⟨m, ms, rfl, hr3.1⟩
  have hpmem : prv H node1 ∈ s :: l₁ := by
    rcases hpv with ⟨_, hv⟩ | ⟨ys, w, hceq, hv⟩
    · rw [hv]; exact List.mem_cons_self _ _
    · rw [hv, hceq]; simp
  have hdmem : nxt H node2 = s ∨ nxt H node2 ∈ l₃ := by
    rcases hd with ⟨_, hv⟩ | ⟨m, ms, hceq, hv⟩
    · exact Or.inl hv
    · rw [hv, hceq]; exact Or.inr (by simp)
  have hp2 : nxt H node1 ≠ prv H node1 := by
    rw [hadj]
    rcases List.mem_cons.mp hpmem with hq | hq
    · rw [hq]; exact Ne.symm hsn2
    · exact fun hc => hn2l1 (hc ▸ hq)
  have hn2d : node2 ≠ nxt H node2 := by
    rcases hdmem with hv | hv
    · rw [hv]; exact Ne.symm hsn2
    · exact fun hc => hn2l3 (hc ▸ hv)
  have hn1d : node1 ≠ nxt H node2 := by
    rcases hdmem with hv | hv
    · rw [hv]; exact Ne.symm hsn1
    · exact fun hc => hn1l3 (hc ▸ hv)
  refine ⟨?_, ?_, ?_⟩
  · rw [chainSeg_append]
    constructor
    · -- from s through l₁, now ending at node2
      rcases hpv with ⟨rfl, hv⟩ | ⟨ys, w, hceq, hv⟩
      · rw [chainSeg_nil]
        constructor
        · rw [swapStep_nxt H node1 hp2 s, hadj, hv]
          simp [hsn2, hsn1]
        · rw [swapStep_prv H node1 hp2 node2, hadj, hv]
          simp [Ne.symm hn12, hn2d]
      · rw [hceq] at hr1 hs1 hnd1 hn1l1 hn2l1 hl1l3 ⊢
        rw [chainSeg_snoc] at hr1
        obtain ⟨hc1, hc2, hc3⟩ := hr1
        simp only [List.mem_append, List.mem_singleton, not_or] at hs1 hn1l1 hn2l1
        have hws : w ≠ s := fun hc => hs1.2 hc.symm
        have hwn1 : w ≠ node1 := fun hc => hn1l1.2 hc.symm
        have hwn2 : w ≠ node2 := fun hc => hn2l1.2 hc.symm
        have hwys : w ∉ ys := by
          rw [List.nodup_append] at hnd1
          exact fun hc => hnd1.2.2 hc (List.mem_singleton_self w)
        rw [chainSeg_snoc]
        refine ⟨?_, ?_, ?_⟩
        · refine chainSeg_frame hc1 ?_ ?_
          · intro y hy
            have hy2 : y ≠ node2 := by
              rcases List.mem_cons.mp hy with rfl | hy2
              · exact hsn2
              · exact fun hc => hn2l1.1 (hc ▸ hy2)
            have hy1 : y ≠ node1 := by
              rcases List.mem_cons.mp hy with rfl | hy2
              · exact hsn1
              · exact fun hc => hn1l1.1 (hc ▸ hy2)
            have hyw : y ≠ w := by
              rcases List.mem_cons.mp hy with rfl | hy2
              · exact Ne.symm hws
              · exact fun hc => hwys (hc ▸ hy2)
            rw [swapStep_nxt H node1 hp2 y, hadj, hv]
            simp [hy2, hy1, hyw]
          · intro y hy
            have hyl1 : y ∈ ys ++ [w] := hy
            have hy1 : y ≠ node1 := by
              rcases List.mem_append.mp hy with hy | hy
              · exact fun hc => hn1l1.1 (hc ▸ hy)
              · rw [List.mem_singleton.mp hy]; exact hwn1
            have hy2 : y ≠ node2 := by
              rcases List.mem_append.mp hy with hy | hy
              · exact fun hc => hn2l1.1 (hc ▸ hy)
              · rw [List.mem_singleton.mp hy]; exact hwn2
            have hyd : y ≠ nxt H node2 := by
              rcases hdmem with hvd | hvd
              · rw [hvd]
                rcases List.mem_append.mp hy with hy | hy
                · exact fun hc => hs1.1 (hc ▸ hy)
                · rw [List.mem_singleton.mp hy]; exact hws
              · rcases List.mem_append.mp hy with hy | hy
                · exact fun hc => hl1l3 y (List.mem_append.mpr (Or.inl hy)) (hc ▸ hvd)
                · rw [List.mem_singleton.mp hy]
                  exact fun hc => hl1l3 w (by simp) (hc ▸ hvd)
            rw [swapStep_prv H node1 hp2 y, hadj]
            simp [hy1, hy2, hyd]
        · rw [swapStep_nxt H node1 hp2 w, hadj, hv]
          simp [hwn2, hwn1]
        · rw [swapStep_prv H node1 hp2 node2, hadj, hv]
          simp [Ne.symm hn12, hn2d]
    · -- node2 then node1 then l₃, back to s
      rw [chainSeg_cons]
      refine ⟨?_, ?_, ?_⟩
      · rw [swapStep_nxt H node1 hp2 node2, hadj]
        simp
      · rw [swapStep_prv H node1 hp2 node1, hadj]
        simp
      · rcases hd with ⟨rfl, hvd⟩ | ⟨m, ms, hceq, hvd⟩
        · rw [chainSeg_nil]
          constructor
          · rw [swapStep_nxt H node1 hp2 node1, hadj, hvd]
            simp [hn12]
          · rw [swapStep_prv H node1 hp2 s, hadj, hvd]
            simp [hsn1, hsn2, Ne.symm hsn2]
        · rw [hceq] at hr3 hs3 hn1l3 hn2l3 hl1l3 hnd3 ⊢
          obtain ⟨hm1, hm2, hm3⟩ := hr3
          simp only [List.mem_cons, not_or] at hs3 hn1l3 hn2l3
          have hmn1 : m ≠ node1 := fun hc => hn1l3.1 hc.symm
          have hmn2 : m ≠ node2 := fun hc => hn2l3.1 hc.symm
          have hms : m ≠ s := fun hc => hs3.1 hc.symm
          have hmms : m ∉ ms := (List.nodup_cons.mp hnd3).1
          rw [chainSeg_cons]
          refine ⟨?_, ?_, ?_⟩
          · rw [swapStep_nxt H node1 hp2 node1, hadj, hvd]
            simp [hn12]
          · rw [swapStep_prv H node1 hp2 m, hadj, hvd]
            simp [hmn1, hmn2]
          · refine chainSeg_frame hm3 ?_ ?_
            · intro y hy
              have hy2 : y ≠ node2 := by
                rcases List.mem_cons.mp hy with rfl | hy2
                · exact hmn2
                · exact fun hc => hn2l3.2 (hc ▸ hy2)
              have hy1 : y ≠ node1 := by
                rcases List.mem_cons.mp hy with rfl | hy2
                · exact hmn1
                · exact fun hc => hn1l3.2 (hc ▸ hy2)
              have hyp : y ≠ prv H node1 := by
                rcases List.mem_cons.mp hpmem with hq | hq
                · rw [hq]
                  rcases List.mem_cons.mp hy with rfl | hy2
                  · exact hms
                  · exact fun hc => hs3.2 (hc ▸ hy2)
                · rcases List.mem_cons.mp hy with rfl | hy2
                  · exact fun hc => hl1l3 _ (hc ▸ hq) (by simp)
                  · exact fun hc =>
                      hl1l3 _ (hc ▸ hq) (by simp [hy2])
              rw [swapStep_nxt H node1 hp2 y, hadj]
              simp [hy2, hy1, hyp]
            · intro y hy
              have hy1 : y ≠ node1 := by
                rcases List.mem_append.mp hy with hy | hy
                · exact fun hc => hn1l3.2 (hc ▸ hy)
                · rw [List.mem_singleton.mp hy]; exact hsn1
              have hy2 : y ≠ node2 := by
                rcases List.mem_append.mp hy with hy | hy
                · exact fun hc => hn2l3.2 (hc ▸ hy)
                · rw [List.mem_singleton.mp hy]; exact hsn2
              have hym : y ≠ m := by
                rcases List.mem_append.mp hy with hy | hy
                · exact fun hc => hmms (hc ▸ hy)
                · rw [List.mem_singleton.mp hy]; exact Ne.symm hms
              rw [swapStep_prv H node1 hp2 y, hadj, hvd]
              simp [hy1, hy2, hym]
  · rw [swapStep_nxt H node1 hp2 node1, hadj]
    simp [hn12]
  · intro x hx
    simp only [List.mem_cons, List.mem_append, not_or] at hx
    obtain ⟨hxs, hx1, hxn1, hxn2, hx3⟩ := hx
    have hxp : x ≠ prv H node1 := by
      rcases List.mem_cons.mp hpmem with hq | hq
      · rw [hq]; exact hxs
      · exact fun hc => hx1 (hc ▸ hq)
    have hxd : x ≠ nxt H node2 := by
      rcases hdmem with hv | hv
      · rw [hv]; exact hxs
      · exact fun hc => hx3 (hc ▸ hv)
    have e1 := swapStep_nxt H node1 hp2 x
    have e2 := swapStep_prv H node1 hp2 x
    rw [hadj] at e1 e2
    rw [if_neg hxn2, if_neg hxn1, if_neg hxp] at e1
    rw [if_neg hxn1, if_neg hxd, if_neg hxn2] at e2
    exact Prod.ext e1 e2

theorem swapLoop_succ (s n : Nat) (H : Heap) (node1 : Nat) :
    swapLoop s (n + 1) H node1 =
      if node1 = s ∨ nxt H node1 = s then H
      else swapLoop s n (swapStep H node1) (nxt (swapStep H node1) node1) := rfl

theorem swapLoop_pres {s : Nat} : ∀ (fuel : Nat) (H : Heap) (node1 : Nat)
    (l : List Nat), chainSeg H s l s → (s :: l).Nodup → (node1 = s ∨ node1 ∈ l) →
    ∃ lr, chainSeg (swapLoop s fuel H node1) s lr s ∧ lr.Perm l ∧
      ∀ x, x ∉ s :: l → swapLoop s fuel H node1 x = H x := by
  intro fuel
  induction fuel with
  | zero => exact fun H node1 l h1 _ _ => ⟨l, h1, List.Perm.refl l, fun _ _ => rfl⟩
  | succ n ih =>
    intro H node1 l h1 h2 he
    rw [swapLoop_succ]
    by_cases hg : node1 = s ∨ nxt H node1 = s
    · rw [if_pos hg]
      exact ⟨l, h1, List.Perm.refl l, fun _ _ => rfl⟩
    · rw [if_neg hg]
      push_neg at hg
      obtain ⟨hg1, hg2⟩ := hg
      have hel : node1 ∈ l := he.resolve_left hg1
      obtain ⟨l₁, l₂, rfl⟩ := List.append_of_mem hel
      have h1d := h1
      rw [chainSeg_append] at h1d
      obtain ⟨ha1, ha2⟩ := h1d
      cases l₂ with
      | nil => exact absurd ha2.1 hg2
      | cons n2 l₃ =>
        obtain ⟨hb1, hb2, hb3⟩ := ha2
        -- n2 is node1's successor
        have hstep := @ring_swapStep _ _ _ n2 _ _ h1 h2
        obtain ⟨hring, hcont, huntouch⟩ := hstep
        have hperm : (l₁ ++ n2 :: node1 :: l₃).Perm (l₁ ++ node1 :: n2 :: l₃) :=
          List.Perm.append_left l₁ (List.Perm.swap node1 n2 l₃)
        have hnd2 : (s :: (l₁ ++ n2 :: node1 :: l₃)).Nodup :=
          (hperm.cons s).symm.nodup h2
        have hcontmem : nxt (swapStep H node1) node1 = s ∨
            nxt (swapStep H node1) node1 ∈ l₁ ++ n2 :: node1 :: l₃ := by
          rw [hcont]
          cases l₃ with
          | nil => exact Or.inl hb3.1
          | cons m ms =>
            rw [hb3.1]
            right
            simp
        obtain ⟨lr, hr1, hr2, hr3⟩ :=
          ih (swapStep H node1) (nxt (swapStep H node1) node1)
            (l₁ ++ n2 :: node1 :: l₃) hring hnd2 hcontmem
        refine ⟨lr, hr1, hr2.trans hperm, ?_⟩
        intro x hx
        have hx2 : x ∉ s :: (l₁ ++ n2 :: node1 :: l₃) := by
          intro hc
          apply hx
          exact (hperm.cons s).mem_iff.mp hc
        rw [hr3 x hx2, huntouch x hx]

/-- The heap in which every node of `L` has its `next`/`prev` exchanged;
the effect of the `q_reverse` pass over the nodes `L`. -/
def swapAll (H : Heap) (L : List Nat) : Heap :=
  fun x => if x ∈ L then ((H x).2, (H x).1) else H x

theorem nxt_swapAll (H : Heap) (L : List Nat) (y : Nat) :
    nxt (swapAll H L) y = if y ∈ L then prv H y else nxt H y := by
  unfold nxt prv swapAll
  split <;> rfl

theorem prv_swapAll (H : Heap) (L : List Nat) (y : Nat) :
    prv (swapAll H L) y = if y ∈ L then nxt H y else prv H y := by
  unfold nxt prv swapAll
  split <;> rfl

theorem revLoop_self (s : Nat) : ∀ (f : Nat) (H : Heap), revLoop s f H s = H := by
  intro f H
  cases f with
  | zero => rfl
  | succ f => show (if s = s then H else _) = H; simp

theorem revLoop_succ (s f : Nat) (H : Heap) (n : Nat) :
    revLoop s (f + 1) H n =
      if n = s then H
      else revLoop s f (setPrev (setNext H n (prv H n)) n (nxt H n)) (nxt H n) := rfl

theorem revLoop_eq {s : Nat} : ∀ (rest : List Nat) (H : Heap) (n fuel : Nat),
    chainSeg H n rest s → (s :: n :: rest).Nodup → rest.length + 1 ≤ fuel →
    revLoop s fuel H n = swapAll H (n :: rest) := by
  intro rest
  induction rest with
  | nil =>
    intro H n fuel h1 h2 hf
    cases fuel with
    | zero => omega
    | succ f =>
      rw [revLoop_succ]
      have hns : n ≠ s := by
        have := (List.nodup_cons.mp h2).1
        simp at this
        exact fun hc => this (hc ▸ rfl)
      rw [if_neg hns, h1.1, revLoop_self]
      funext x
      by_cases hx : x = n
      · subst hx
        show (if x = x then _ else _) = _
        simp [swapAll, setNext, setPrev, h1.1]
        constructor
        · rfl
        · exact h1.1.symm
      · simp [swapAll, setNext, setPrev, hx]
  | cons z rest2 ih =>
    intro H n fuel h1 h2 hf
    cases fuel with
    | zero => simp at hf
    | succ f =>
      rw [revLoop_succ]
      have hns : n ≠ s := by
        have := (List.nodup_cons.mp h2).1
        simp only [List.mem_cons, not_or] at this
        exact fun hc => this.1 hc.symm
      rw [if_neg hns]
      obtain ⟨hz1, hz2, hz3⟩ := h1
      have hnzr : n ∉ z :: rest2 := by
        have := List.nodup_cons.mp (List.nodup_cons.mp h2).2
        exact this.1
      have hnd2 : (s :: z :: rest2).Nodup := by
        refine h2.sublist ?_
        exact List.Sublist.cons₂ s (List.Sublist.cons n (List.Sublist.refl _))
      have hchain2 : chainSeg (setPrev (setNext H n (prv H n)) n z) z rest2 s := by
        refine chainSeg_frame hz3 ?_ ?_
        · intro y hy
          have hyn : y ≠ n := fun hc => hnzr (hc ▸ hy)
          simp [hyn]
        · intro y hy
          have hyn : y ≠ n := by
            rcases List.mem_append.mp hy with hy | hy
            · exact fun hc => hnzr (hc ▸ List.mem_cons_of_mem z hy)
            · rw [List.mem_singleton.mp hy]
              exact Ne.symm hns
          simp [hyn]
      rw [hz1]
      rw [ih _ z f hchain2 hnd2 (by simp at hf ⊢; omega)]
      funext x
      by_cases hx : x = n
      · subst hx
        have hxz : x ∉ z :: rest2 := hnzr
        simp only [swapAll, hxz, if_false, List.mem_cons, true_or, if_true]
        simp [setNext, setPrev]
        exact ⟨rfl, hz1.symm⟩
      · by_cases hxm : x ∈ z :: rest2
        · simp only [swapAll, hxm, if_true, List.mem_cons]
          have : x ∈ n :: z :: rest2 := List.mem_cons_of_mem n hxm
          simp only [this, List.mem_cons] at *
          simp [setNext, setPrev, hx]
        · have : x ∉ n :: z :: rest2 := by
            simp only [List.mem_cons, not_or]
            simp only [List.mem_cons, not_or] at hxm
            exact ⟨hx, hxm⟩
          simp only [swapAll, hxm, if_false, this]
          simp [setNext, setPrev, hx]

theorem chainSeg_swapAll {H : Heap} {S : List Nat} :
    ∀ (xs : List Nat) (a b : Nat), chainSeg H a xs b →
      (∀ x ∈ a :: (xs ++ [b]), x ∈ S) →
      chainSeg (swapAll H S) b xs.reverse a := by
  intro xs
  induction xs with
  | nil =>
    intro a b h hmem
    rw [chainSeg_nil] at h
    simp only [List.reverse_nil]
    rw [chainSeg_nil]
    constructor
    · rw [nxt_swapAll, if_pos (hmem b (by simp)), h.2]
    · rw [prv_swapAll, if_pos (hmem a (by simp)), h.1]
  | cons x xs ih =>
    intro a b h hmem
    obtain ⟨h1, h2, h3⟩ := h
    rw [List.reverse_cons, chainSeg_snoc]
    refine ⟨ih x b h3 (fun y hy => hmem y (by simp at hy ⊢; tauto)), ?_, ?_⟩
    · rw [nxt_swapAll, if_pos (hmem x (by simp)), h2]
    · rw [prv_swapAll, if_pos (hmem a (by simp)), h1]

theorem sentinel_swap_swapAll (H : Heap) (L : List Nat) (h0 : (0 : Nat) ∉ L) :
    setPrev (setNext (swapAll H L) 0 (prv (swapAll H L) 0)) 0
        (nxt (swapAll H L) 0) =
      swapAll H (0 :: L) := by
  funext y
  by_cases hy : y = 0
  · subst hy
    simp [setPrev, setNext, swapAll, nxt, prv, h0]
  · simp [setPrev, setNext, swapAll, nxt, prv, hy]

theorem qReverseP_pres {st : Sys} {l : List Nat}
    (h1 : chainSeg st.H 0 l 0) (h2 : (0 :: l).Nodup)
    (h3 : ∀ a ∈ 0 :: l, a < st.fr) :
    chainSeg (qReverseP st).H 0 l.reverse 0 ∧
      (qReverseP st).val = st.val ∧ (qReverseP st).fr = st.fr ∧
      ∀ x, x ∉ 0 :: l → (qReverseP st).H x = st.H x := by
  unfold qReverseP
  cases l with
  | nil =>
    rw [if_pos h1.1]
    exact ⟨by simpa using h1, rfl, rfl, fun _ _ => rfl⟩
  | cons x xs =>
    obtain ⟨hx1, hx2, hx3⟩ := h1
    have hg : ¬ nxt st.H 0 = 0 := by
      rw [hx1]
      exact fun hc => (List.nodup_cons.mp h2).1 (hc ▸ List.mem_cons_self x xs)
    rw [if_neg hg]
    dsimp only
    rw [hx1]
    have hrev : revLoop 0 st.fr st.H x = swapAll st.H (x :: xs) := by
      refine revLoop_eq xs st.H x st.fr hx3 h2 ?_
      have := ring_length_le h2 h3
      simp at this ⊢
      omega
    rw [hrev]
    have h0notin : (0 : Nat) ∉ x :: xs := (List.nodup_cons.mp h2).1
    rw [sentinel_swap_swapAll st.H (x :: xs) h0notin]
    refine ⟨?_, rfl, rfl, ?_⟩
    · exact chainSeg_swapAll (x :: xs) 0 0 ⟨hx1, hx2, hx3⟩ (fun y hy => by
        simp at hy ⊢
        tauto)
    · intro y hy
      simp only [List.mem_cons, not_or] at hy
      simp [swapAll, hy.1, hy.2]

theorem scanP_mem {val : Nat → CStr} {H : Heap} {s1 : Nat} {y : CStr}
    {l : List Nat} (hr : chainSeg H s1 l s1) :
    ∀ (fuel node1 : Nat), node1 ∈ s1 :: l → scanP val H s1 y fuel node1 ∈ s1 :: l := by
  intro fuel
  induction fuel with
  | zero => exact fun node1 h => h
  | succ n ih =>
    intro node1 h
    show (if node1 = s1 then node1
          else if strcmp (val node1) y = .lt then scanP val H s1 y n (nxt H node1)
          else node1) ∈ s1 :: l
    split
    · exact h
    · split
      · exact ih (nxt H node1) (ring_nxt_mem hr node1 h)
      · exact h

theorem two_ring_nodup_mk {s1 s2 : Nat} {l1 l2 : List Nat}
    (h1 : s1 ∉ l1) (h2 : s1 ≠ s2) (h3 : s1 ∉ l2) (h4 : l1.Nodup) (h5 : s2 ∉ l1)
    (h6 : ∀ x ∈ l1, x ∉ l2) (h7 : s2 ∉ l2) (h8 : l2.Nodup) :
    (s1 :: (l1 ++ s2 :: l2)).Nodup := by
  refine List.nodup_cons.mpr ⟨?_, ?_⟩
  · simp only [List.mem_append, List.mem_cons, not_or]
    exact ⟨h1, h2, h3⟩
  · rw [List.nodup_append]
    refine ⟨h4, List.nodup_cons.mpr ⟨h7, h8⟩, ?_⟩
    intro a ha hc
    rcases List.mem_cons.mp hc with rfl | hc
    · exact h5 ha
    · exact h6 a ha hc

theorem mergeLoopP_succ (val : Nat → CStr) (inner s1 s2 fuel : Nat) (H : Heap)
    (node1 : Nat) :
    mergeLoopP val inner s1 s2 (fuel + 1) H node1 =
      if nxt H s2 = s2 then H
      else
        if scanP val H s1 (val (nxt H s2)) inner node1 = s1 then
          mergeLoopP val inner s1 s2 fuel (list_splice_tail_init H s2 s1)
            (scanP val H s1 (val (nxt H s2)) inner node1)
        else
          mergeLoopP val inner s1 s2 fuel
            (list_add_tail (list_del_init H (nxt H s2)) (nxt H s2)
              (scanP val H s1 (val (nxt H s2)) inner node1))
            (scanP val H s1 (val (nxt H s2)) inner node1) := rfl

theorem mergeLoopP_pres {val : Nat → CStr} {inner s1 s2 : Nat} :
    ∀ (fuel : Nat) (H : Heap) (node1 : Nat) (l1 l2 : List Nat),
      chainSeg H s1 l1 s1 → chainSeg H s2 l2 s2 →
      (s1 :: (l1 ++ s2 :: l2)).Nodup → node1 ∈ s1 :: l1 →
      ∃ l1p l2p,
        chainSeg (mergeLoopP val inner s1 s2 fuel H node1) s1 l1p s1 ∧
        chainSeg (mergeLoopP val inner s1 s2 fuel H node1) s2 l2p s2 ∧
        (s1 :: (l1p ++ s2 :: l2p)).Nodup ∧
        (∀ x, x ∈ l1p ++ l2p → x ∈ l1 ++ l2) ∧
        (∀ x, x ∉ s1 :: (l1 ++ s2 :: l2) →
          mergeLoopP val inner s1 s2 fuel H node1 x = H x) := by
  intro fuel
  induction fuel with
  | zero =>
    exact fun H node1 l1 l2 hr1 hr2 hnd _ =>
      ⟨l1, l2, hr1, hr2, hnd, fun x hx => hx, fun _ _ => rfl⟩
  | succ n ih =>
    intro H node1 l1 l2 hr1 hr2 hnd hn1
    rw [mergeLoopP_succ]
    by_cases hg : nxt H s2 = s2
    · rw [if_pos hg]
      exact ⟨l1, l2, hr1, hr2, hnd, fun x hx => hx, fun _ _ => rfl⟩
    · rw [if_neg hg]
      obtain ⟨hs1l1, hs1s2, hs1l2, hl1nd, hs2l1, hdj, hs2l2, hl2nd⟩ := two_ring_nodup hnd
      cases l2 with
      | nil => exact absurd hr2.1 hg
      | cons node2 ms =>
        have hn2 : nxt H s2 = node2 := hr2.1
        rw [hn2]
        have hscan := @scanP_mem val _ _ (val node2) _ hr1 inner node1 hn1
        have hn2s1 : node2 ≠ s1 := by
          intro hc
          exact hs1l2 (hc ▸ List.mem_cons_self node2 ms)
        have hn2l1 : node2 ∉ l1 :=
          fun hc => hdj node2 hc (List.mem_cons_self node2 ms)
        have hn2ms : node2 ∉ ms := (List.nodup_cons.mp hl2nd).1
        have hn2s2 : node2 ≠ s2 := by
          intro hc
          exact hs2l2 (hc ▸ List.mem_cons_self node2 ms)
        by_cases hsc : scanP val H s1 (val node2) inner node1 = s1
        · rw [if_pos hsc]
          obtain ⟨hsp1, hsp2, hsp3⟩ := ring_splice_tail hr1 hr2 hnd
          have hnd2 : (s1 :: ((l1 ++ node2 :: ms) ++ s2 :: ([] : List Nat))).Nodup := by
            refine two_ring_nodup_mk ?_ hs1s2 (by simp) ?_ ?_ ?_ (by simp) List.nodup_nil
            · simp only [List.mem_append, not_or]
              exact ⟨hs1l1, hs1l2⟩
            · rw [List.nodup_append]
              exact ⟨hl1nd, hl2nd, fun a ha hc => hdj a ha hc⟩
            · simp only [List.mem_append, not_or]
              exact ⟨hs2l1, hs2l2⟩
            · intro x _
              simp
          obtain ⟨l1p, l2p, hq1, hq2, hq3, hq4, hq5⟩ :=
            ih (list_splice_tail_init H s2 s1)
              (scanP val H s1 (val node2) inner node1)
              (l1 ++ node2 :: ms) [] hsp1 hsp2 hnd2 (by rw [hsc]; simp)
          refine ⟨l1p, l2p, hq1, hq2, hq3, ?_, ?_⟩
          · intro x hx
            have := hq4 x hx
            simp only [List.mem_append, List.mem_cons] at this ⊢
            tauto
          · intro x hx
            have hx2 : x ∉ s1 :: ((l1 ++ node2 :: ms) ++ s2 :: ([] : List Nat)) := by
              simp only [List.mem_cons, List.mem_append, not_or] at hx ⊢
              tauto
            rw [hq5 x hx2, hsp3 x hx]
        · rw [if_neg hsc]
          have hcl1 : scanP val H s1 (val node2) inner node1 ∈ l1 :=
            (List.mem_cons.mp hscan).resolve_left hsc
          obtain ⟨u, v, huv⟩ := List.append_of_mem hcl1
          have hsep : ∀ y, y ∈ s1 :: l1 → y ∉ s2 :: node2 :: ms := by
            intro y hy hc
            rcases List.mem_cons.mp hy with rfl | hy2
            · rcases List.mem_cons.mp hc with h | h
              · exact hs1s2 h
              · exact hs1l2 h
            · rcases List.mem_cons.mp hc with h | h
              · exact hs2l1 (h ▸ hy2)
              · exact hdj y hy2 h
          have hnds2 : (s2 :: (([] : List Nat) ++ node2 :: ms)).Nodup := by
            simp only [List.nil_append]
            exact List.nodup_cons.mpr ⟨hs2l2, hl2nd⟩
          obtain ⟨hd1, hd2, hd3⟩ :=
            ring_list_del_init
              (show chainSeg H s2 (([] : List Nat) ++ node2 :: ms) s2 from hr2) hnds2
          simp only [List.nil_append] at hd1 hd3
          have hr1b : chainSeg (list_del_init H node2) s1 l1 s1 := by
            refine chainSeg_congr hr1 ?_
            intro y hy
            refine hd3 y (hsep y ?_)
            simp only [List.mem_cons, List.mem_append, List.mem_singleton] at hy ⊢
            tauto
          rw [huv] at hr1b
          have hnd1c : (s1 :: (u ++ scanP val H s1 (val node2) inner node1 :: v)).Nodup := by
            rw [← huv]
            exact List.nodup_cons.mpr ⟨hs1l1, hl1nd⟩
          have hn2fresh :
              node2 ∉ s1 :: (u ++ scanP val H s1 (val node2) inner node1 :: v) := by
            rw [← huv]
            simp only [List.mem_cons, not_or]
            exact ⟨hn2s1, hn2l1⟩
          obtain ⟨hadd1, hadd2⟩ := ring_list_add_tail_mid hr1b hnd1c hn2fresh
          -- ring 2 (now holding ms) is untouched by the insertion
          have hd1b : chainSeg
              (list_add_tail (list_del_init H node2) node2
                (scanP val H s1 (val node2) inner node1)) s2 ms s2 := by
            refine chainSeg_congr hd1 ?_
            intro y hy
            have hyms : y = s2 ∨ y ∈ ms := by
              simp only [List.mem_cons, List.mem_append, List.mem_singleton] at hy
              tauto
            refine hadd2 y ?_ ?_
            · rw [← huv]
              intro hc
              rcases List.mem_cons.mp hc with rfl | hc2
              · rcases hyms with rfl | h
                · exact hs1s2 rfl
                · exact hs1l2 (List.mem_cons_of_mem node2 h)
              · rcases hyms with rfl | h
                · exact hs2l1 hc2
                · exact hdj y hc2 (List.mem_cons_of_mem node2 h)
            · rcases hyms with rfl | h
              · exact Ne.symm hn2s2
              · exact fun hc => hn2ms (hc ▸ h)
          have hndIH : (s1 :: ((u ++ node2 :: scanP val H s1 (val node2) inner node1 :: v)
              ++ s2 :: ms)).Nodup := by
            have hperm :
                (u ++ node2 :: scanP val H s1 (val node2) inner node1 :: v).Perm
                  (node2 :: (u ++ scanP val H s1 (val node2) inner node1 :: v)) :=
              List.perm_middle
            refine two_ring_nodup_mk ?_ hs1s2 ?_ ?_ ?_ ?_
              (fun hc => hs2l2 (List.mem_cons_of_mem node2 hc))
              (List.nodup_cons.mp hl2nd).2
            · intro hc
              have := hperm.mem_iff.mp hc
              rcases List.mem_cons.mp this with h | h
              · exact hn2s1 h.symm
              · rw [← huv] at h
                exact hs1l1 h
            · exact fun hc => hs1l2 (List.mem_cons_of_mem node2 hc)
            · refine hperm.symm.nodup ?_
              refine List.nodup_cons.mpr ⟨?_, ?_⟩
              · rw [← huv]; exact hn2l1
              · rw [← huv]; exact hl1nd
            · intro hc
              have := hperm.mem_iff.mp hc
              rcases List.mem_cons.mp this with h | h
              · exact hn2s2 h.symm
              · rw [← huv] at h
                exact hs2l1 h
            · intro x hx hc
              have := hperm.mem_iff.mp hx
              rcases List.mem_cons.mp this with h | h
              · subst h
                exact hn2ms hc
              · rw [← huv] at h
                exact hdj x h (List.mem_cons_of_mem node2 hc)
          obtain ⟨l1p, l2p, hq1, hq2, hq3, hq4, hq5⟩ :=
            ih (list_add_tail (list_del_init H node2) node2
                (scanP val H s1 (val node2) inner node1))
              (scanP val H s1 (val node2) inner node1)
              (u ++ node2 :: scanP val H s1 (val node2) inner node1 :: v) ms
              hadd1 hd1b hndIH (by simp)
          refine ⟨l1p, l2p, hq1, hq2, hq3, ?_, ?_⟩
          · intro x hx
            have := hq4 x hx
            simp only [List.mem_append, List.mem_cons] at this ⊢
            rw [huv]
            simp only [List.mem_append, List.mem_cons]
            tauto
          · intro x hx
            have hxparts : x ≠ s1 ∧ x ∉ l1 ∧ x ≠ s2 ∧ x ≠ node2 ∧ x ∉ ms := by
              simp only [List.mem_cons, List.mem_append, not_or] at hx
              tauto
            have hx2 : x ∉ s1 :: ((u ++ node2 :: scanP val H s1 (val node2) inner node1 :: v)
                ++ s2 :: ms) := by
              simp only [List.mem_cons, List.mem_append, not_or]
              have hxl1 := hxparts.2.1
              rw [huv] at hxl1
              simp only [List.mem_append, List.mem_cons, not_or] at hxl1
              exact ⟨hxparts.1, ⟨hxl1.1, hxparts.2.2.2.1, hxl1.2.1, hxl1.2.2⟩,
                hxparts.2.2.1, hxparts.2.2.2.2⟩
            rw [hq5 x hx2]
            rw [hadd2 x ?_ hxparts.2.2.2.1]
            · rw [hd3 x ?_]
              simp only [List.mem_cons, not_or]
              exact ⟨hxparts.2.2.1, hxparts.2.2.2.1, hxparts.2.2.2.2⟩
            · rw [← huv]
              simp only [List.mem_cons, not_or]
              exact ⟨hxparts.1, hxparts.2.1⟩

theorem qSortP_succ (f s : Nat) (st : Sys) :
    qSortP (f + 1) s st =
      if nxt st.H s = s ∨ prv st.H s = nxt st.H s then st
      else
        let s2 := st.fr
        let H0 := initHead st.H s2
        let t := qGetMidP H0 (st.fr + 1) s
        let H1 := list_cut_position H0 s2 s t
        let st1 := qSortP f s { H := H1, val := st.val, fr := st.fr + 1 }
        let st2 := qSortP f s2 st1
        { st2 with H := mergeP st2.val (st2.fr + 1) s s2 (st2.fr + 1) st2.H } := rfl

theorem qSortP_pres : ∀ (fuel s : Nat) (st : Sys) (l : List Nat),
    chainSeg st.H s l s → (s :: l).Nodup → (∀ a ∈ s :: l, a < st.fr) →
    ∃ lp, chainSeg (qSortP fuel s st).H s lp s ∧ (s :: lp).Nodup ∧
      (∀ a ∈ lp, a ∈ l) ∧ st.fr ≤ (qSortP fuel s st).fr ∧
      (∀ x, x ∉ s :: l → x < st.fr → (qSortP fuel s st).H x = st.H x) := by
  intro fuel
  induction fuel with
  | zero =>
    exact fun s st l h1 h2 _ =>
      ⟨l, h1, h2, fun a ha => ha, Nat.le_refl _, fun _ _ _ => rfl⟩
  | succ f ih =>
    intro s st l hr hnd hb
    rw [qSortP_succ]
    by_cases hg : nxt st.H s = s ∨ prv st.H s = nxt st.H s
    · rw [if_pos hg]
      exact ⟨l, hr, hnd, fun a ha => ha, Nat.le_refl _, fun _ _ _ => rfl⟩
    · rw [if_neg hg]
      dsimp only
      push_neg at hg
      obtain ⟨hg1, _⟩ := hg
      have hlne : l ≠ [] := by
        intro hc
        subst hc
        exact hg1 hr.1
      have hs2fresh : st.fr ∉ s :: l := fun hc => Nat.lt_irrefl _ (hb _ hc)
      have hr0 : chainSeg (initHead st.H st.fr) s l s := by
        refine chainSeg_congr hr ?_
        intro y hy
        refine initHead_untouched _ _ _ ?_
        intro hc
        apply hs2fresh
        rw [← hc]
        simp only [List.mem_cons, List.mem_append, List.not_mem_nil, or_false] at hy
        simp only [List.mem_cons]
        tauto
      set T := qGetMidP (initHead st.H st.fr) (st.fr + 1) s with hTdef
      have htmem : T ∈ l := qGetMidP_mem hr0 hlne (st.fr + 1)
      obtain ⟨l₁, l₂, hsplit⟩ := List.append_of_mem htmem
      rw [hsplit] at hr0 hnd hb hs2fresh ⊢
      obtain ⟨hcut1, hcut2, hcut3⟩ := ring_cut (t := T) hr0 hnd hs2fresh
      set H1 := list_cut_position (initHead st.H st.fr) st.fr s T with hH1def
      set ST1 := qSortP f s { H := H1, val := st.val, fr := st.fr + 1 } with hST1def
      -- first recursive call: sorts the suffix l₂ under the original sentinel
      have hnd₂ : (s :: l₂).Nodup := by
        refine hnd.sublist ?_
        refine List.Sublist.cons₂ s ?_
        exact List.Sublist.trans (List.Sublist.cons T (List.Sublist.refl l₂))
          (List.sublist_append_right l₁ _)
      have hb₂ : ∀ a ∈ s :: l₂, a < st.fr + 1 := by
        intro a ha
        have ha2 : a ∈ s :: (l₁ ++ T :: l₂) := by
          simp only [List.mem_cons, List.mem_append] at ha ⊢
          tauto
        exact Nat.lt_succ_of_lt (hb a ha2)
      obtain ⟨lp₁, hq1, hq2, hq3, hq4, hq5⟩ :=
        ih s { H := H1, val := st.val, fr := st.fr + 1 } l₂ hcut2 hnd₂ hb₂
      rw [← hST1def] at hq1 hq4 hq5
      have hq4f : st.fr + 1 ≤ ST1.fr := hq4
      have hq5f : ∀ x, x ∉ s :: l₂ → x < st.fr + 1 → ST1.H x = H1 x := hq5
      -- the fresh sentinel's ring survives the first recursive call
      have hmem_cut_ring : ∀ y, y ∈ st.fr :: (l₁ ++ [T]) →
          y ∉ s :: l₂ ∧ y < st.fr + 1 := by
        intro y hy
        rcases List.mem_cons.mp hy with rfl | hy2
        · constructor
          · intro hc
            rcases List.mem_cons.mp hc with hc | hc
            · exact hs2fresh (hc ▸ List.mem_cons_self _ _)
            · exact hs2fresh (List.mem_cons_of_mem s (by
                simp only [List.mem_append, List.mem_cons]
                tauto))
          · omega
        · have hyl : y ∈ l₁ ++ T :: l₂ := by
            simp only [List.mem_append, List.mem_cons, List.not_mem_nil, or_false] at hy2 ⊢
            tauto
          constructor
          · intro hc
            rcases List.mem_cons.mp hc with rfl | hc
            · exact (List.nodup_cons.mp hnd).1 hyl
            · have hndl := (List.nodup_cons.mp hnd).2
              rw [List.nodup_append] at hndl
              simp only [List.mem_append, List.mem_cons, List.not_mem_nil, or_false] at hy2
              rcases hy2 with hy2 | rfl
              · exact hndl.2.2 hy2 (List.mem_cons_of_mem _ hc)
              · exact (List.nodup_cons.mp hndl.2.1).1 hc
          · have := hb y (List.mem_cons_of_mem s hyl)
            omega
      have hring2 : chainSeg ST1.H st.fr (l₁ ++ [T]) st.fr := by
        refine chainSeg_congr hcut1 ?_
        intro y hy
        have hy2 : y ∈ st.fr :: (l₁ ++ [T]) := by
          simp only [List.mem_cons, List.mem_append, List.not_mem_nil, or_false] at hy ⊢
          tauto
        obtain ⟨ha, hb2⟩ := hmem_cut_ring y hy2
        exact hq5f y ha hb2
      have hnd₁ : (st.fr :: (l₁ ++ [T])).Nodup := by
        refine List.nodup_cons.mpr ⟨?_, ?_⟩
        · intro hc
          apply hs2fresh
          refine List.mem_cons_of_mem s ?_
          simp only [List.mem_append, List.not_mem_nil, or_false, List.mem_cons] at hc ⊢
          tauto
        · have hndl := (List.nodup_cons.mp hnd).2
          refine hndl.sublist ?_
          refine List.Sublist.append_left ?_ l₁
          exact List.Sublist.cons₂ T (List.nil_sublist l₂)
      have hb₁ : ∀ a ∈ st.fr :: (l₁ ++ [T]), a < ST1.fr := by
        intro a ha
        have hfr1 : st.fr + 1 ≤ ST1.fr := hq4f
        rcases List.mem_cons.mp ha with rfl | ha2
        · omega
        · have ha3 : a ∈ l₁ ++ T :: l₂ := by
            simp only [List.mem_append, List.not_mem_nil, or_false, List.mem_cons] at ha2 ⊢
            tauto
          have := hb a (List.mem_cons_of_mem s ha3)
          omega
      -- second recursive call: sorts the prefix under the fresh sentinel
      obtain ⟨lp₂, hw1, hw2, hw3, hw4, hw5⟩ := ih st.fr ST1 (l₁ ++ [T]) hring2 hnd₁ hb₁
      set ST2 := qSortP f st.fr ST1 with hST2def
      -- shared non-membership facts
      have hsl : s ∉ l₁ ++ T :: l₂ := (List.nodup_cons.mp hnd).1
      have hndl : (l₁ ++ T :: l₂).Nodup := (List.nodup_cons.mp hnd).2
      have hdisj : ∀ x ∈ l₁ ++ [T], x ∉ l₂ := by
        rw [List.nodup_append] at hndl
        intro x hx
        rcases List.mem_append.mp hx with hx | hx
        · exact fun hc => hndl.2.2 hx (List.mem_cons_of_mem _ hc)
        · have hxT : x = T := by
            simpa using hx
          rw [hxT]
          exact (List.nodup_cons.mp hndl.2.1).1
      have hsfr : s ≠ st.fr := by
        intro hc
        exact hs2fresh (by rw [← hc]; exact List.mem_cons_self _ _)
      -- the original sentinel's ring survives the second recursive call
      have hringS : chainSeg ST2.H s lp₁ s := by
        refine chainSeg_congr hq1 ?_
        intro y hy
        have hy2 : y ∈ s :: lp₁ := by
          simp only [List.mem_cons, List.mem_append, List.not_mem_nil, or_false] at hy
          simp only [List.mem_cons]
          tauto
        have hyL : y ∈ s :: (l₁ ++ T :: l₂) := by
          rcases List.mem_cons.mp hy2 with rfl | hy3
          · exact List.mem_cons_self _ _
          · refine List.mem_cons_of_mem _ ?_
            have := hq3 y hy3
            simp only [List.mem_append, List.mem_cons]
            tauto
        refine hw5 y ?_ ?_
        · intro hc
          rcases List.mem_cons.mp hc with rfl | hc
          · exact hs2fresh hyL
          · rcases List.mem_cons.mp hy2 with rfl | hy3
            · apply hsl
              simp only [List.mem_append, List.not_mem_nil, or_false, List.mem_cons] at hc ⊢
              tauto
            · exact hdisj y hc (hq3 y hy3)
        · have h9 : y < st.fr := hb y hyL
          have h10 : st.fr + 1 ≤ ST1.fr := hq4f
          omega
      -- the two rings together are disjoint, ready for the merge
      have hndM : (s :: (lp₁ ++ st.fr :: lp₂)).Nodup := by
        refine two_ring_nodup_mk ?_ hsfr ?_ ?_ ?_ ?_ ?_ ?_
        · exact (List.nodup_cons.mp hq2).1
        · intro hc
          apply hsl
          have := hw3 s hc
          simp only [List.mem_append, List.not_mem_nil, or_false, List.mem_cons] at this ⊢
          tauto
        · exact (List.nodup_cons.mp hq2).2
        · intro hc
          apply hs2fresh
          refine List.mem_cons_of_mem s ?_
          have := hq3 _ hc
          simp only [List.mem_append, List.mem_cons]
          tauto
        · intro x hx hc
          exact hdisj x (hw3 x hc) (hq3 x hx)
        · exact (List.nodup_cons.mp hw2).1
        · exact (List.nodup_cons.mp hw2).2
      obtain ⟨l1p, l2p, hm1, hm2, hm3, hm4, hm5⟩ :=
        mergeLoopP_pres (ST2.fr + 1) ST2.H (nxt ST2.H s) lp₁ lp₂ hringS hw1 hndM
          (ring_nxt_mem hringS s (List.mem_cons_self _ _))
      refine ⟨l1p, ?_, ?_, ?_, ?_, ?_⟩
      · simpa only [mergeP] using hm1
      · exact List.nodup_cons.mpr ⟨(two_ring_nodup hm3).1, (two_ring_nodup hm3).2.2.2.1⟩
      · intro a ha
        have ha2 : a ∈ lp₁ ++ lp₂ := hm4 a (List.mem_append.mpr (Or.inl ha))
        rcases List.mem_append.mp ha2 with ha3 | ha3
        · have := hq3 a ha3
          simp only [List.mem_append, List.mem_cons]
          tauto
        · have := hw3 a ha3
          simp only [List.mem_append, List.not_mem_nil, or_false, List.mem_cons] at this ⊢
          tauto
      · show st.fr ≤ ST2.fr
        have h1 : st.fr + 1 ≤ ST1.fr := hq4f
        omega
      · intro x hx hxlt
        simp only [List.mem_cons, List.mem_append, not_or] at hx
        obtain ⟨hxs, hx1, hxt, hx2⟩ := hx
        have hxfr : x ≠ st.fr := by omega
        have hxnot1T : x ∉ l₁ ++ [T] := by
          simp only [List.mem_append, List.not_mem_nil, or_false, List.mem_singleton]
          tauto
        show mergeP ST2.val (ST2.fr + 1) s st.fr (ST2.fr + 1) ST2.H x = st.H x
        have e5 : mergeP ST2.val (ST2.fr + 1) s st.fr (ST2.fr + 1) ST2.H x = ST2.H x := by
          show mergeLoopP ST2.val (ST2.fr + 1) s st.fr (ST2.fr + 1) ST2.H (nxt ST2.H s) x
            = ST2.H x
          refine hm5 x ?_
          simp only [List.mem_cons, List.mem_append, not_or]
          refine ⟨hxs, ?_, hxfr, ?_⟩
          · intro hc
            exact absurd (hq3 x hc) hx2
          · intro hc
            exact hxnot1T (hw3 x hc)
        have e4 : ST2.H x = ST1.H x := by
          have h10 : st.fr + 1 ≤ ST1.fr := hq4f
          refine hw5 x ?_ ?_
          · intro hc
            rcases List.mem_cons.mp hc with rfl | hc
            · exact hxfr rfl
            · exact hxnot1T hc
          · omega
        have e3 : ST1.H x = H1 x := by
          refine hq5f x ?_ (by omega)
          simp only [List.mem_cons, not_or]
          exact ⟨hxs, hx2⟩
        have e2 : H1 x = initHead st.H st.fr x := by
          refine hcut3 x ?_ hxfr
          simp only [List.mem_cons, List.mem_append, not_or]
          tauto
        have e1 : initHead st.H st.fr x = st.H x := initHead_untouched _ _ _ hxfr
        rw [e5, e4, e3, e2, e1]

/-! ## Preservation of the chain invariant by every public operation -/

theorem stepOp_pres {st : Sys} {l : List Nat} (h : Inv st l) (op : Op) :
    ∃ lr, Inv (stepOp st op) lr := by
  obtain ⟨hr, hnd, hb⟩ := h
  have hfr0 : 0 < st.fr := hb 0 (List.mem_cons_self _ _)
  have hfresh : st.fr ∉ 0 :: l := fun hc => Nat.lt_irrefl _ (hb _ hc)
  cases op with
  | insHead ok v =>
    show ∃ lr, Inv (insHeadP ok v st) lr
    cases ok with
    | false => exact ⟨l, hr, hnd, hb⟩
    | true =>
      obtain ⟨hadd, _⟩ := ring_list_add hr hnd hfresh
      refine ⟨st.fr :: l, hadd, ?_, ?_⟩
      · simp only [List.mem_cons, not_or] at hfresh
        refine List.nodup_cons.mpr ⟨?_, List.nodup_cons.mpr ⟨hfresh.2, (List.nodup_cons.mp hnd).2⟩⟩
        simp only [List.mem_cons, not_or]
        exact ⟨fun hc => hfresh.1 hc.symm, (List.nodup_cons.mp hnd).1⟩
      · intro a ha
        show a < st.fr + 1
        simp only [List.mem_cons] at ha
        rcases ha with rfl | rfl | ha
        · omega
        · omega
        · have := hb a (List.mem_cons_of_mem 0 ha)
          omega
  | insTail ok v =>
    show ∃ lr, Inv (insTailP ok v st) lr
    cases ok with
    | false => exact ⟨l, hr, hnd, hb⟩
    | true =>
      obtain ⟨hadd, _⟩ := ring_list_add_tail hr hnd hfresh
      refine ⟨l ++ [st.fr], hadd, ?_, ?_⟩
      · simp only [List.mem_cons, not_or] at hfresh
        refine List.nodup_cons.mpr ⟨?_, ?_⟩
        · simp only [List.mem_append, List.mem_singleton, not_or]
          exact ⟨(List.nodup_cons.mp hnd).1, fun hc => hfresh.1 hc.symm⟩
        · rw [List.nodup_append]
          refine ⟨(List.nodup_cons.mp hnd).2, List.nodup_singleton _, ?_⟩
          intro a ha hc
          rw [List.mem_singleton.mp hc] at ha
          exact hfresh.2 ha
      · intro a ha
        show a < st.fr + 1
        simp only [List.mem_cons, List.mem_append, List.not_mem_nil, or_false] at ha
        rcases ha with rfl | ha | rfl
        · omega
        · have := hb a (List.mem_cons_of_mem 0 ha)
          omega
        · omega
  | rmHead =>
    show ∃ lr, Inv (rmHeadP st) lr
    unfold rmHeadP
    by_cases hg : nxt st.H 0 = 0
    · rw [if_pos hg]
      exact ⟨l, hr, hnd, hb⟩
    · rw [if_neg hg]
      cases l with
      | nil => exact absurd hr.1 hg
      | cons x xs =>
        have hx : nxt st.H 0 = x := hr.1
        rw [hx]
        obtain ⟨hdel, _, _⟩ :=
          ring_list_del_init (show chainSeg st.H 0 (([] : List Nat) ++ x :: xs) 0 from hr) hnd
        refine ⟨xs, by simpa using hdel, ?_, ?_⟩
        · exact hnd.sublist (List.Sublist.cons₂ 0 (List.Sublist.cons x (List.Sublist.refl xs)))
        · intro a ha
          refine hb a ?_
          simp only [List.mem_cons] at ha ⊢
          tauto
  | rmTail =>
    show ∃ lr, Inv (rmTailP st) lr
    unfold rmTailP
    by_cases hg : nxt st.H 0 = 0
    · rw [if_pos hg]
      exact ⟨l, hr, hnd, hb⟩
    · rw [if_neg hg]
      rcases List.eq_nil_or_concat l with rfl | ⟨ys, w, hceq⟩
      · exact absurd hr.1 hg
      simp only [List.concat_eq_append] at hceq
      rw [hceq] at hr hnd hb
      have hw : prv st.H 0 = w := ((chainSeg_snoc ys).mp hr).2.2
      rw [hw]
      obtain ⟨hdel, _, _⟩ :=
        ring_list_del_init (show chainSeg st.H 0 (ys ++ w :: ([] : List Nat)) 0 from hr)
          (show (0 :: (ys ++ w :: ([] : List Nat))).Nodup from hnd)
      refine ⟨ys, by simpa using hdel, ?_, ?_⟩
      · refine hnd.sublist ?_
        refine List.Sublist.cons₂ 0 ?_
        simpa using List.Sublist.append_left (List.nil_sublist [w]) ys
      · intro a ha
        refine hb a ?_
        simp only [List.mem_cons, List.mem_append, List.mem_singleton] at ha ⊢
        tauto
  | delMid =>
    show ∃ lr, Inv (delMidP st) lr
    unfold delMidP
    by_cases hg : nxt st.H 0 = 0
    · rw [if_pos hg]
      exact ⟨l, hr, hnd, hb⟩
    · rw [if_neg hg]
      have hlne : l ≠ [] := by
        intro hc
        rw [hc] at hr
        exact hg hr.1
      have htmem : qGetMidP st.H (st.fr + 1) 0 ∈ l := qGetMidP_mem hr hlne (st.fr + 1)
      obtain ⟨l₁, l₂, hsplit⟩ := List.append_of_mem htmem
      rw [hsplit] at hr hnd hb
      obtain ⟨hdel, _⟩ := ring_list_del hr hnd
      refine ⟨l₁ ++ l₂, hdel, ?_, ?_⟩
      · refine hnd.sublist ?_
        refine List.Sublist.cons₂ 0 ?_
        exact List.Sublist.append_left (List.Sublist.cons _ (List.Sublist.refl l₂)) l₁
      · intro a ha
        refine hb a ?_
        simp only [List.mem_cons, List.mem_append] at ha ⊢
        tauto
  | delDup =>
    show ∃ lr, Inv (delDupP st) lr
    have he : nxt st.H 0 = 0 ∨ nxt st.H 0 ∈ l := by
      have := ring_nxt_mem hr 0 (List.mem_cons_self _ _)
      simpa using this
    obtain ⟨lr, hq1, hq2, hq3, _⟩ :=
      delDupLoop_pres st.fr st.H (nxt st.H 0) l hr hnd he
    exact ⟨lr, hq1, hq2, fun a ha => by
      rcases List.mem_cons.mp ha with rfl | ha
      · exact hfr0
      · exact hb a (List.mem_cons_of_mem 0 (hq3 a ha))⟩
  | swap =>
    show ∃ lr, Inv (qSwapP st) lr
    have he : nxt st.H 0 = 0 ∨ nxt st.H 0 ∈ l := by
      have := ring_nxt_mem hr 0 (List.mem_cons_self _ _)
      simpa using this
    obtain ⟨lr, hq1, hq2, _⟩ :=
      swapLoop_pres st.fr st.H (nxt st.H 0) l hr hnd he
    refine ⟨lr, hq1, ?_, ?_⟩
    · exact (List.Perm.cons 0 hq2).nodup_iff.mpr hnd
    · intro a ha
      rcases List.mem_cons.mp ha with rfl | ha
      · exact hfr0
      · exact hb a (List.mem_cons_of_mem 0 (hq2.mem_iff.mp ha))
  | rev =>
    show ∃ lr, Inv (qReverseP st) lr
    obtain ⟨hq1, _, hq3, _⟩ := qReverseP_pres hr hnd hb
    refine ⟨l.reverse, hq1, ?_, ?_⟩
    · refine List.nodup_cons.mpr ⟨?_, ?_⟩
      · rw [List.mem_reverse]
        exact (List.nodup_cons.mp hnd).1
      · rw [List.nodup_reverse]
        exact (List.nodup_cons.mp hnd).2
    · intro a ha
      rw [hq3]
      refine hb a ?_
      simp only [List.mem_cons, List.mem_reverse] at ha ⊢
      tauto
  | sort =>
    show ∃ lr, Inv (qSortP (st.fr + 1) 0 st) lr
    obtain ⟨lp, hq1, hq2, hq3, hq4, _⟩ := qSortP_pres (st.fr + 1) 0 st l hr hnd hb
    refine ⟨lp, hq1, hq2, ?_⟩
    intro a ha
    rcases List.mem_cons.mp ha with rfl | ha
    · omega
    · have := hb a (List.mem_cons_of_mem 0 (hq3 a ha))
      omega

/-- Any operation sequence run from the empty queue keeps the chain
invariant. -/
theorem run_inv : ∀ (ops : List Op) (st : Sys) (l : List Nat), Inv st l →
    ∃ lr, Inv (run ops st) lr := by
  intro ops
  induction ops with
  | nil => exact fun st l h => ⟨l, h⟩
  | cons op ops ih =>
    intro st l h
    obtain ⟨lr, hlr⟩ := stepOp_pres h op
    exact ih _ lr hlr

theorem sys0_inv : Inv sys0 [] := by
  refine ⟨⟨rfl, rfl⟩, ?_, ?_⟩
  · exact List.nodup_singleton 0
  · intro a ha
    simp only [List.mem_cons, List.not_mem_nil, or_false] at ha
    rw [ha]
    exact Nat.one_pos

/-! ## The claims -/

/-- Claim C1: for every list of string values, after `q_sort` the traversal
yields the values in non-decreasing order under `strcmp`, and the multiset
of values is unchanged from before the call. -/
theorem q_sort_sorts (l : List CStr) :
    q_sort (some l) = some (q_sortF l) ∧ (q_sortF l).Pairwise sLe ∧
      (q_sortF l : Multiset CStr) = (l : Multiset CStr) :=
  ⟨rfl, (q_sortF_spec l).1, Multiset.coe_eq_coe.mpr (q_sortF_spec l).2⟩

/-- After one successful insertion the queue holds one element, yet
following `next` from the sentinel exactly `size()` (= 1) times lands on
the element, not back at the sentinel: the spec's iteration count is off
by one (the sentinel is reached after `size() + 1` steps). -/
theorem size_iterate_counterexample :
    qSizeP (run [Op.insHead true [97]] sys0).H (run [Op.insHead true [97]] sys0).fr = 1 ∧
      (fun x => nxt (run [Op.insHead true [97]] sys0).H x)^[1] 0 ≠ 0 :=
  ⟨by decide, by decide⟩

/-- Claim C2 (corrected): after any sequence of public operations applied
to a queue created empty, the chain remains circular and doubly
consistent — following `next` from the sentinel exactly `size() + 1` times
(not `size()` times as the spec says) returns to the sentinel, likewise
for `prev`, and `n.next.prev = n` for the sentinel and every node in the
chain. -/
theorem run_chain_invariant (ops : List Op) :
    ∃ l : List Nat,
      chainSeg (run ops sys0).H 0 l 0 ∧ (0 :: l).Nodup ∧
      qSizeP (run ops sys0).H (run ops sys0).fr = l.length ∧
      (fun x => nxt (run ops sys0).H x)^[qSizeP (run ops sys0).H (run ops sys0).fr + 1] 0 = 0 ∧
      (fun x => prv (run ops sys0).H x)^[qSizeP (run ops sys0).H (run ops sys0).fr + 1] 0 = 0 ∧
      ∀ n ∈ 0 :: l, prv (run ops sys0).H (nxt (run ops sys0).H n) = n := by
  obtain ⟨l, hr, hnd, hb⟩ := run_inv ops sys0 [] sys0_inv
  have hsz : qSizeP (run ops sys0).H (run ops sys0).fr = l.length :=
    qSizeP_chain hr hnd (ring_length_le hnd hb)
  refine ⟨l, hr, hnd, hsz, ?_, ?_, chainSeg_nxt_prv hr⟩
  · rw [hsz]
    exact chainSeg_iterate_nxt hr
  · rw [hsz]
    exact chainSeg_iterate_prv hr

/-- Claim C3: every public operation with a NULL-handle guard treats a
null list handle as a no-op returning false/NULL/zero — but `q_swap` has
no such guard: its first statement `node1 = head->next` dereferences the
null handle (modelled as `Except.error`), so the pairwise swap faults
instead of being a no-op on an absent list. -/
theorem null_handle_ops :
    (∀ oe os v, q_insert_head oe os none v = (false, none, 0)) ∧
    (∀ oe os v, q_insert_tail oe os none v = (false, none, 0)) ∧
    (∀ sp bufsize, q_remove_head none sp bufsize = (none, none, none)) ∧
    (∀ sp bufsize, q_remove_tail none sp bufsize = (none, none, none)) ∧
    q_size none = 0 ∧
    q_delete_mid none = (false, none) ∧
    q_delete_dup none = (false, none) ∧
    q_reverse none = none ∧
    q_sort none = none ∧
    q_swap none = Except.error () :=
  ⟨fun _ _ _ => rfl, fun _ _ _ => rfl, fun _ _ => rfl, fun _ _ => rfl,
   rfl, rfl, rfl, rfl, rfl, rfl⟩

/-- For the two-element list the middle-finder stops at zero-based index
0, not ⌊2/2⌋ = 1; for six elements it stops at index 2, not ⌊6/2⌋ = 3:
the spec's index ⌊n/2⌋ is wrong for every even length. -/
theorem mid_index_counterexample :
    q_delete_mid (some [[97], [98]]) = (true, some [[98]]) ∧
      q_delete_mid (some [[97], [98]]) ≠
        (true, some (([[97], [98]] : List CStr).eraseIdx (2 / 2))) ∧
      qGetMidIdx 6 = 2 ∧ qGetMidIdx 6 ≠ 6 / 2 := by
  refine ⟨by decide, by decide, by decide, by decide⟩

/-- Claim C4 (corrected): for every non-empty list of n elements the
middle-finder stops at zero-based index ⌊(n−1)/2⌋ counting from the front
(not ⌊n/2⌋ as the spec says — the two agree exactly when n is odd; a
single-element list returns its sole element, index 0), and
`q_delete_mid` erases that index. -/
theorem q_get_mid_index (l : List CStr) (h : l ≠ []) :
    qGetMidIdx l.length = (l.length - 1) / 2 ∧
      q_delete_mid (some l) = (true, some (l.eraseIdx ((l.length - 1) / 2))) := by
  have hlen : 1 ≤ l.length := List.length_pos.mpr h
  have hm := qGetMidIdx_eq l.length hlen
  refine ⟨hm, ?_⟩
  obtain ⟨v, rest, rfl⟩ : ∃ v rest, l = v :: rest := by
    cases l with
    | nil => exact absurd rfl h
    | cons v rest => exact ⟨v, rest, rfl⟩
  show (true, some ((v :: rest).eraseIdx (qGetMidIdx (v :: rest).length))) = _
  rw [hm]

theorem q_get_mid_index_witness :
    qGetMidIdx ([[97], [98]] : List CStr).length = (([[97], [98]] : List CStr).length - 1) / 2 ∧
      q_delete_mid (some [[97], [98]]) =
        (true, some (([[97], [98]] : List CStr).eraseIdx
          ((([[97], [98]] : List CStr).length - 1) / 2))) :=
  q_get_mid_index [[97], [98]] (by decide)

/-- Claim C5: on a list already sorted ascending, `q_delete_dup` collapses
every maximal run of equal adjacent values to exactly its last element
(the earlier of each equal-adjacent pair is unlinked and destroyed, the
later retained — `specRunsLast` is that description written from the
spec's words) and returns true; it returns false only on an absent
handle, and an empty list is a successful no-op. -/
theorem q_delete_dup_spec (l : List Elem) (hs : (l.map Prod.snd).Pairwise sLe) :
    q_delete_dup (some l) = (true, some (specRunsLast l)) ∧
      q_delete_dup (none : Option (List Elem)) = (false, none) ∧
      q_delete_dup (some ([] : List Elem)) = (true, some []) := by
  refine ⟨?_, rfl, rfl⟩
  show (true, some (delDupF l)) = _
  rw [delDupF_eq_specRunsLast]

theorem q_delete_dup_spec_witness :
    q_delete_dup (some [((0 : Nat), [97]), ((1 : Nat), [97]), ((2 : Nat), [98])]) =
      (true, some (specRunsLast [((0 : Nat), [97]), ((1 : Nat), [97]), ((2 : Nat), [98])])) ∧
      q_delete_dup (none : Option (List Elem)) = (false, none) ∧
      q_delete_dup (some ([] : List Elem)) = (true, some []) :=
  q_delete_dup_spec [((0 : Nat), [97]), ((1 : Nat), [97]), ((2 : Nat), [98])] (by decide)

/-- Claim C6: `merge` on two sorted lists consumes the second list (it
ends empty, its elements all moved into the first, which ends sorted with
the combined multiset); when the first list's scan head compares equal to
the current head of the second list the scan stops and the second list's
element is inserted before it; when the scan reaches the first list's
sentinel the entire remaining second list is spliced onto its tail. -/
theorem merge_spec (l1 l2 : List CStr) (h1 : l1.Pairwise sLe) (h2 : l2.Pairwise sLe) :
    (merge l1 l2).2 = [] ∧
      ((merge l1 l2).1 : Multiset CStr) = ((l1 ++ l2 : List CStr) : Multiset CStr) ∧
      (merge l1 l2).1.Pairwise sLe ∧
      (∀ y ys, l2 = y :: ys → (∀ x ∈ l1, sltb x y = true) →
        (merge l1 l2).1 = l1 ++ y :: ys) ∧
      (∀ x xs y ys, l1 = x :: xs → l2 = y :: ys → strcmp x y = Ordering.eq →
        (merge l1 l2).1 = y :: (merge (x :: xs) ys).1) := by
  refine ⟨mergeTri_snd l2 [] l1, ?_, ?_, ?_, ?_⟩
  · rw [merge_fst]
    exact Multiset.coe_eq_coe.mpr (mergeStd_perm l2 l1)
  · rw [merge_fst]
    exact mergeStd_sorted l2 l1 h1 h2
  · intro y ys hl2 hall
    subst hl2
    show (mergeTri [] l1 (y :: ys)).1 = _
    rw [show mergeTri [] l1 (y :: ys) =
        if (l1.dropWhile fun x => sltb x y) = [] then ([] ++ l1 ++ y :: ys, [])
        else mergeTri ([] ++ (l1.takeWhile fun x => sltb x y) ++ [y])
          (l1.dropWhile fun x => sltb x y) ys from rfl]
    rw [if_pos (List.dropWhile_eq_nil_iff.mpr fun x hx => by rw [hall x hx])]
    simp
  · intro x xs y ys hl1 hl2 heq
    subst hl1
    subst hl2
    have hp : sltb x y = false := by simp [sltb, heq]
    show (mergeTri [] (x :: xs) (y :: ys)).1 = _
    rw [show mergeTri [] (x :: xs) (y :: ys) =
        if ((x :: xs).dropWhile fun z => sltb z y) = [] then ([] ++ (x :: xs) ++ y :: ys, [])
        else mergeTri ([] ++ ((x :: xs).takeWhile fun z => sltb z y) ++ [y])
          ((x :: xs).dropWhile fun z => sltb z y) ys from rfl]
    rw [List.dropWhile_cons, List.takeWhile_cons]
    rw [hp]
    show (mergeTri ([] ++ [] ++ [y]) (x :: xs) ys).1 = _
    rw [mergeTri_fst_acc ys ([] ++ [] ++ [y]) (x :: xs)]
    rfl

theorem merge_spec_witness :
    (merge [[97], [99]] [[97], [98]]).2 = [] ∧
      ((merge [[97], [99]] [[97], [98]]).1 : Multiset CStr) =
        (([[97], [99]] ++ [[97], [98]] : List CStr) : Multiset CStr) ∧
      (merge [[97], [99]] [[97], [98]]).1.Pairwise sLe ∧
      (∀ y ys, ([[97], [98]] : List CStr) = y :: ys →
        (∀ x ∈ ([[97], [99]] : List CStr), sltb x y = true) →
        (merge [[97], [99]] [[97], [98]]).1 = [[97], [99]] ++ y :: ys) ∧
      (∀ x xs y ys, ([[97], [99]] : List CStr) = x :: xs →
        ([[97], [98]] : List CStr) = y :: ys → strcmp x y = Ordering.eq →
        (merge [[97], [99]] [[97], [98]]).1 = y :: (merge (x :: xs) ys).1) :=
  merge_spec [[97], [99]] [[97], [98]] (by decide) (by decide)

/-- Claim C7: for every non-empty queue, `q_remove_head` (resp.
`q_remove_tail`) unlinks and returns the first (resp. last) element
without destroying its payload, and with a supplied buffer of capacity
`bufsize` copies up to `bufsize − 1` bytes of the value plus a NUL
terminator into it; it returns NULL when the queue is null or empty. -/
theorem q_remove_spec (v : CStr) (l : List CStr) (bufsize : Nat) (h : 1 ≤ bufsize) :
    q_remove_head (some (v :: l)) true bufsize = (some v, some l, some (copyOut v bufsize)) ∧
      q_remove_tail (some (v :: l)) true bufsize =
        (some ((v :: l).getLast (List.cons_ne_nil v l)), some (v :: l).dropLast,
         some (copyOut ((v :: l).getLast (List.cons_ne_nil v l)) bufsize)) ∧
      copyOut v bufsize = v.take (bufsize - 1) ++ [0] ∧
      q_remove_head none true bufsize = (none, none, none) ∧
      q_remove_head (some []) true bufsize = (none, some [], none) ∧
      q_remove_tail none true bufsize = (none, none, none) ∧
      q_remove_tail (some []) true bufsize = (none, some [], none) :=
  ⟨rfl, rfl, rfl, rfl, rfl, rfl, rfl⟩

theorem q_remove_spec_witness :
    q_remove_head (some [[97, 98], [99]]) true 2 =
      (some [97, 98], some [[99]], some (copyOut [97, 98] 2)) ∧
      q_remove_tail (some [[97, 98], [99]]) true 2 =
        (some (([[97, 98], [99]] : List CStr).getLast (List.cons_ne_nil _ _)),
         some ([[97, 98], [99]] : List CStr).dropLast,
         some (copyOut (([[97, 98], [99]] : List CStr).getLast (List.cons_ne_nil _ _)) 2)) ∧
      copyOut [97, 98] 2 = [97, 98].take (2 - 1) ++ [0] ∧
      q_remove_head none true 2 = (none, none, none) ∧
      q_remove_head (some []) true 2 = (none, some [], none) ∧
      q_remove_tail none true 2 = (none, none, none) ∧
      q_remove_tail (some []) true 2 = (none, some [], none) :=
  q_remove_spec [97, 98] [[99]] 2 (by decide)

/-- Claim C8: whenever `q_insert_head` or `q_insert_tail` fails — null
handle, element-allocation failure, or string-duplication failure — it
returns false, the queue's content is exactly as before the call, and no
allocated piece is leaked or left partially linked (the third component
counts pieces neither released nor linked on return). -/
theorem q_insert_fail_atomic (okElem okStr : Bool) (l : List CStr) (s : CStr)
    (h : okElem = false ∨ okStr = false) :
    q_insert_head okElem okStr (some l) s = (false, some l, 0) ∧
      q_insert_tail okElem okStr (some l) s = (false, some l, 0) ∧
      q_insert_head okElem okStr none s = (false, none, 0) ∧
      q_insert_tail okElem okStr none s = (false, none, 0) := by
  rcases h with h | h
  · subst h
    exact ⟨rfl, rfl, rfl, rfl⟩
  · subst h
    cases okElem with
    | false => exact ⟨rfl, rfl, rfl, rfl⟩
    | true => exact ⟨rfl, rfl, rfl, rfl⟩

theorem q_insert_fail_atomic_witness :
    q_insert_head false true (some [[97]]) [98] = (false, some [[97]], 0) ∧
      q_insert_tail false true (some [[97]]) [98] = (false, some [[97]], 0) ∧
      q_insert_head false true none [98] = (false, none, 0) ∧
      q_insert_tail false true none [98] = (false, none, 0) :=
  q_insert_fail_atomic false true [[97]] [98] (Or.inl rfl)

/-- Written from the spec's words (§4.8), for comparison with the split
the code performs: "detaches the segment from that node through the
current tail, re-homing it under a second, separately-provided sentinel,
leaving the original list holding only the prefix up through the node
before the target" — for a cut at zero-based target index `m`, the pair
(content moved under the new sentinel, content left in the original). -/
def cutSpecWords (l : List CStr) (m : Nat) : List CStr × List CStr :=
  (l.drop m, l.take m)

/-- Under the spec's literal cut direction, sorting a two-element list
would re-home both elements (the cut at the middle index 0 moves the
segment from the middle through the tail, i.e. the whole list) and leave
the original empty, so the recursive call would receive a list of the
same length 2 and `q_sort` could not terminate — yet the code's sort
does terminate and sorts the two elements, so the cut the code performs
is the opposite: the prefix through the target moves, the suffix stays. -/
theorem cut_spec_words_counterexample :
    (cutSpecWords [[98], [97]] (qGetMidIdx 2)).1.length = 2 ∧
      cutSpecWords [[98], [97]] (qGetMidIdx 2) ≠
        (([[98], [97]] : List CStr).take (qGetMidIdx 2 + 1),
         ([[98], [97]] : List CStr).drop (qGetMidIdx 2 + 1)) ∧
      q_sortF [[98], [97]] = [[97], [98]] := by
  refine ⟨by decide, by decide, ?_⟩
  have e1 : q_sortF ([[97]] : List CStr) = [[97]] := by
    rw [q_sortF]
    rw [dif_pos (by decide : ([[97]] : List CStr).length ≤ 1)]
  have e2 : q_sortF ([[98]] : List CStr) = [[98]] := by
    rw [q_sortF]
    rw [dif_pos (by decide : ([[98]] : List CStr).length ≤ 1)]
  rw [q_sortF]
  rw [dif_neg (by decide : ¬([[98], [97]] : List CStr).length ≤ 1)]
  rw [show qGetMidIdx ([[98], [97]] : List CStr).length + 1 = 1 from by decide]
  rw [show ([[98], [97]] : List CStr).drop 1 = [[97]] from rfl,
      show ([[98], [97]] : List CStr).take 1 = [[98]] from rfl]
  rw [e1, e2]
  decide

/-- Claim C9 (corrected): the split step used by the sort
(`list_cut_position(&head2, head, target)`), given a target node in the
chain, detaches the initial segment from the first node through the
target inclusive and re-homes it under the second, separately-provided
sentinel, leaving the original list holding only the suffix after the
target (the spec states the two sides the other way round). -/
theorem cut_position_moves_prefix {H : Heap} {s s2 t : Nat} {l₁ l₂ : List Nat}
    (hr : chainSeg H s (l₁ ++ t :: l₂) s) (hnd : (s :: (l₁ ++ t :: l₂)).Nodup)
    (hfr : s2 ∉ s :: (l₁ ++ t :: l₂)) :
    chainSeg (list_cut_position H s2 s t) s2 (l₁ ++ [t]) s2 ∧
      chainSeg (list_cut_position H s2 s t) s l₂ s :=
  ⟨(ring_cut hr hnd hfr).1, (ring_cut hr hnd hfr).2.1⟩

/-- A three-element ring 0 → 1 → 2 → 0 (sentinel 0), for exercising the
cut step on concrete addresses. -/
def H2ex : Heap := fun a =>
  if a = 0 then (1, 2) else if a = 1 then (2, 0) else if a = 2 then (0, 1) else (a, a)

theorem cut_position_moves_prefix_witness :
    chainSeg (list_cut_position H2ex 3 0 1) 3 ([] ++ [1]) 3 ∧
      chainSeg (list_cut_position H2ex 3 0 1) 0 [2] 0 :=
  cut_position_moves_prefix (by decide) (by decide) (by decide)

/-- Claim C10: `q_sort` terminates on every finite list — for every list
of n ≥ 2 elements, cutting after the node `q_get_mid` returns leaves two
non-empty parts, each strictly shorter than the whole, so the recursion
is well-founded on list length (this is the measure that makes `q_sortF`
total). -/
theorem q_sort_split_sizes (l : List CStr) (h : 2 ≤ l.length) :
    0 < (l.take (qGetMidIdx l.length + 1)).length ∧
      (l.take (qGetMidIdx l.length + 1)).length < l.length ∧
      0 < (l.drop (qGetMidIdx l.length + 1)).length ∧
      (l.drop (qGetMidIdx l.length + 1)).length < l.length := by
  have hm := qGetMidIdx_eq l.length (by omega)
  simp only [List.length_take, List.length_drop, hm]
  omega

theorem q_sort_split_sizes_witness :
    0 < (([[97], [98]] : List CStr).take (qGetMidIdx ([[97], [98]] : List CStr).length + 1)).length ∧
      (([[97], [98]] : List CStr).take (qGetMidIdx ([[97], [98]] : List CStr).length + 1)).length <
        ([[97], [98]] : List CStr).length ∧
      0 < (([[97], [98]] : List CStr).drop (qGetMidIdx ([[97], [98]] : List CStr).length + 1)).length ∧
      (([[97], [98]] : List CStr).drop (qGetMidIdx ([[97], [98]] : List CStr).length + 1)).length <
        ([[97], [98]] : List CStr).length :=
  q_sort_split_sizes [[97], [98]] (by decide)

end LabQueue
